import Mathlib

/-!
Verification of the family-tree graph builder, reveal sequencer, viewport
engine and focus-subtree resolver of the `ft` repository.

The development is a shallow embedding of the TypeScript source:

* `src/hooks/useFamilyTree.ts` - row normalization (`validPeople`) and the
  graph construction (`peopleMap`, spouse linking, child attachment, child
  sorting, root detection, spouse-of-non-root exclusion, root deduplication);
* the reveal animation effect and `displayedRoots` of the application root
  component (`src/unnamed/part_009`);
* the pan/zoom handlers of `src/components/FamilyTree.tsx`.

Modelling conventions, used throughout:

* JavaScript strings are Lean `String`; a missing or empty field is the empty
  string, and JS truthiness of a string field is `truthy` (non-emptiness).
* A birth date field is modelled as `Option Nat`: the value is the key of the
  parsed calendar date (the result of `new Date(s + "T00:00:00").getTime()`
  in the source, which orders valid ISO dates chronologically), `none` when
  the field is empty.  No claim depends on the string form of dates.
* A JS `Map` is an association list `List (key, value)` in insertion order;
  `mapSet` overwrites in place when the key is present (JS `Map.set` keeps
  the original insertion position) and appends otherwise; `mapGet` is the
  first (unique) match.  A JS `Set` of strings is a duplicate-free `List` in
  insertion order, built with `setAdd`.
* `Array.prototype.sort(cmp)` is modelled by `jsSort`, a stable top-down
  merge sort driven by the comparator: the merge takes the left element
  exactly when the comparator does not place it strictly after the right
  one.  ECMAScript pins the result down only for consistent comparators;
  the stable comparison-faithful merge sort is the canonical total model.
* Recursions that the source runs on data it assumes acyclic (the BFS of the
  reveal effect, the descendant-tree recursion of `displayedRoots`) take an
  explicit fuel argument bounding the number of loop iterations or the call
  depth; any fuel at least the relevant size reproduces the source.
-/

namespace FT

/-- JS truthiness of a string field: the empty string is falsy. -/
def truthy (s : String) : Bool := !s.isEmpty

/-- One parsed CSV row, after Papa.parse with trimmed headers.  Only the
columns the graph builder reads are kept; the remaining scalar columns are
carried through construction unread. -/
structure Row where
  id : String
  name : String
  fatherID : String
  motherID : String
  spouseID : String
  birthDate : Option Nat
  deriving Repr, DecidableEq

/-- A normalized person, the result of the mapping step inside `validPeople`
(src/hooks/useFamilyTree.ts, lines 56-70): `parentsIds` collects
`[fatherID, motherID].filter(Boolean)`, `partnerId` is the raw `spouseID`. -/
structure Person where
  id : String
  name : String
  parentsIds : List String
  partnerId : String
  birthDate : Option Nat
  fatherID : String
  motherID : String
  deriving Repr, DecidableEq

/-- The row acceptance and normalization of `validPeople`: a row missing its
`id` or `name` (empty after trimming) is dropped, every other row is mapped
to a `Person`. -/
def normalizeRow (row : Row) : Option Person :=
  if !truthy row.id || !truthy row.name then none
  else some
    { id := row.id
      name := row.name
      parentsIds := [row.fatherID, row.motherID].filter truthy
      partnerId := row.spouseID
      birthDate := row.birthDate
      fatherID := row.fatherID
      motherID := row.motherID }

/-- `validPeople` (src/hooks/useFamilyTree.ts, lines 56-70): the accepted
rows of the input, in order. -/
def validPeople (rows : List Row) : List Person :=
  rows.filterMap normalizeRow

/-- One value of the people map: the person spread into a fresh object with
an empty `children` list (line 125), plus the derived `children` (ids of the
attached children, in attachment order, as the map is keyed injectively by
id) and `spouse` (the id of the resolved spouse reference, or `none`). -/
structure Entry where
  person : Person
  children : List String
  spouse : Option String
  deriving Repr, DecidableEq

/-- The people map, a JS `Map<string, Person>` in insertion order. -/
abbrev PMap := List (String × Entry)

/-- JS `Map.get`. -/
def mapGet (m : PMap) (k : String) : Option Entry :=
  (m.find? (fun kv => kv.1 = k)).map (fun kv => kv.2)

/-- JS `Map.set`: overwrite in place when the key is present (keeping the
original insertion position), append otherwise. -/
def mapSet (m : PMap) (k : String) (v : Entry) : PMap :=
  if m.any (fun kv => kv.1 = k) then
    m.map (fun kv => if kv.1 = k then (k, v) else kv)
  else
    m ++ [(k, v)]

/-- JS `Set.add` on a duplicate-free insertion-ordered list. -/
def setAdd (s : List String) (x : String) : List String :=
  if s.contains x then s else s ++ [x]

/-- Phase 1 (lines 122-126): materialize one fresh entry per person into the
map, each with an empty children list and unresolved spouse. -/
def insertPeople (people : List Person) : PMap :=
  people.foldl (fun m p => mapSet m p.id ⟨p, [], none⟩) []

/-- Phase 2a (lines 130-136): for every person whose `partnerId` is truthy
and present in the map, resolve `.spouse` to that reference.  The source
runs this inside a single `forEach` together with child attachment; the two
touch disjoint fields (`spouse` vs `children`) and the spouse link reads
only map membership, which is fixed, so the split into passes is faithful. -/
def linkSpouses (m : PMap) : PMap :=
  m.map (fun kv =>
    if truthy kv.2.person.partnerId && (mapGet m kv.2.person.partnerId).isSome then
      (kv.1, { kv.2 with spouse := some kv.2.person.partnerId })
    else kv)

/-- One parent-reference step of phase 2b (lines 139-147): if the referenced
parent exists, append this person to its children unless already present by
id, and mark this person as a non-root.  A dangling reference changes
nothing. -/
def attachStep (acc : PMap × List String) (pid : String) (parentId : String) :
    PMap × List String :=
  match mapGet acc.1 parentId with
  | none => acc
  | some parent =>
      (if parent.children.any (fun c => c = pid) then acc.1
       else mapSet acc.1 parentId { parent with children := parent.children ++ [pid] },
       setAdd acc.2 pid)

/-- Phase 2b (lines 138-148): link children to their parents, collecting the
`nonRoots` set.  The `forEach` reads only the stable fields `person.id` and
`person.parentsIds` of each entry, so iterating the initial entry list while
threading the updated map is faithful to iterating the live map. -/
def attachChildren (m : PMap) : PMap × List String :=
  m.foldl
    (fun acc kv =>
      kv.2.person.parentsIds.foldl
        (fun a2 parentId => attachStep a2 kv.2.person.id parentId) acc)
    (m, [])

/-- The child comparator (lines 153-158) on the birth-date keys of two
children: a child without a birth date is ordered after everything, then
dated children compare by parsed date.  For two undated children the
comparator answers 1 in both orders, so it is not a consistent comparator. -/
def cmpBirth (a b : Option Nat) : Int :=
  match a with
  | none => 1
  | some da =>
      match b with
      | none => -1
      | some db => (da : Int) - (db : Int)

/-- The birth date of the map member with the given id (children always are
map members, attached under their unique key). -/
def bdOf (m : PMap) (cid : String) : Option Nat :=
  match mapGet m cid with
  | some e => e.person.birthDate
  | none => none

/-- Stable merge of two lists under a Bool comparison, structurally recursive
in a fuel argument so the definition computes in the kernel: take the left
element exactly when `le` holds of the heads.  Fuel equal to the combined
length always suffices; the fuel-out case never fires then. -/
def jsMergeF (le : String → String → Bool) : Nat → List String → List String → List String
  | 0, xs, ys => xs ++ ys
  | _ + 1, [], ys => ys
  | _ + 1, xs, [] => xs
  | fuel + 1, x :: xs, y :: ys =>
      if le x y then x :: jsMergeF le fuel xs (y :: ys)
      else y :: jsMergeF le fuel (x :: xs) ys

/-- Stable merge with exactly sufficient fuel. -/
def jsMerge (le : String → String → Bool) (xs ys : List String) : List String :=
  jsMergeF le (xs.length + ys.length) xs ys

/-- Fuel-indexed top-down stable merge sort; fuel at least the length of the
list always suffices (each recursive call strictly shrinks the list). -/
def jsMergeSortF (le : String → String → Bool) : Nat → List String → List String
  | 0, l => l
  | fuel + 1, l =>
      if l.length ≤ 1 then l
      else
        jsMerge le (jsMergeSortF le fuel (l.take (l.length / 2)))
          (jsMergeSortF le fuel (l.drop (l.length / 2)))

/-- The model of `Array.prototype.sort(cmp)`: the canonical stable
comparison-driven merge sort. -/
def jsSort (cmp : String → String → Int) (l : List String) : List String :=
  jsMergeSortF (fun a b => cmp a b ≤ 0) l.length l

/-- Phase 3 (lines 150-160): sort every children list of length above one by
the birth-date comparator.  Only `children` fields change, and the comparator
reads only birth dates, which no phase mutates, so looking them up in the
incoming map is faithful. -/
def sortChildren (m : PMap) : PMap :=
  m.map (fun kv =>
    if kv.2.children.length > 1 then
      (kv.1, { kv.2 with
                 children := jsSort (fun a b => cmpBirth (bdOf m a) (bdOf m b)) kv.2.children })
    else kv)

/-- Lines 162-167: the persons not marked non-root, in map order. -/
def rootCandidates (m : PMap) (nonRoots : List String) : List String :=
  (m.filter (fun kv => !(nonRoots.contains kv.2.person.id))).map
    (fun kv => kv.2.person.id)

/-- Lines 170-177: drop a root candidate whose resolved spouse is a
non-root. -/
def trueRootList (m : PMap) (nonRoots : List String) (roots : List String) :
    List String :=
  roots.filter (fun rid =>
    match mapGet m rid with
    | some e =>
        match e.spouse with
        | some sid => !(nonRoots.contains sid)
        | none => true
    | none => true)

/-- Lines 180-189: de-duplicate the remaining candidates, consuming the
spouse of every kept root. -/
def finalRoots (m : PMap) (trl : List String) : List String :=
  (trl.foldl
    (fun (acc : List String × List String) rid =>
      if acc.2.contains rid then acc
      else
        (acc.1 ++ [rid],
         match (mapGet m rid).bind (fun e => e.spouse) with
         | some sid => setAdd (setAdd acc.2 rid) sid
         | none => setAdd acc.2 rid))
    ([], [])).1

/-- The result of graph construction: the lookup, the internal non-root set,
and the deduplicated forest roots (`finalRoots` in the source).  The
non-root set is part of the source state (line 128) and is exposed here so
the root invariants can be stated. -/
structure Graph where
  lookup : PMap
  nonRoots : List String
  roots : List String
  deriving Repr, DecidableEq

/-- The whole `useMemo` graph construction (lines 117-192). -/
def buildGraph (people : List Person) : Graph :=
  if people.length = 0 then ⟨[], [], []⟩
  else
    let m0 := insertPeople people
    let m1 := linkSpouses m0
    let anr := attachChildren m1
    let m3 := sortChildren anr.1
    let rl := rootCandidates m3 anr.2
    let trl := trueRootList m3 anr.2 rl
    ⟨m3, anr.2, finalRoots m3 trl⟩

/-- The resolved spouse id of a lookup member. -/
def spouseOf (m : PMap) (pid : String) : Option String :=
  (mapGet m pid).bind (fun e => e.spouse)

/-- The children ids of a lookup member (empty for an unknown id). -/
def childrenOf (m : PMap) (pid : String) : List String :=
  match mapGet m pid with
  | some e => e.children
  | none => []

/-- The raw `partnerId` (declared spouseID) of a lookup member. -/
def partnerOf (m : PMap) (pid : String) : Option String :=
  (mapGet m pid).map (fun e => e.person.partnerId)

/-- The `parentsIds` of a lookup member (empty for an unknown id). -/
def parentsOf (m : PMap) (pid : String) : List String :=
  match mapGet m pid with
  | some e => e.person.parentsIds
  | none => []

/-! ## The reveal sequencer

The initial reveal animation effect of the application root component
(src/unnamed/part_009, lines 221-258): a breadth-first generation list built
from the forest roots, then a flat action list revealing each not yet
visited person and, right after, the spouse slot of each revealed person
that has a resolved spouse. -/

/-- One step of building `nextGenerationMap` (lines 230-236): a JS `Map`
keyed by child id whose value is determined by the id, so it is the
first-occurrence deduplicated id list. -/
def nextGeneration (m : PMap) (gen : List String) : List String :=
  gen.foldl (fun acc pid => (childrenOf m pid).foldl setAdd acc) []

/-- The BFS generation loop (lines 224-238), with fuel bounding the number
of iterations; the JS loop runs until a generation is empty, which for a
forest (acyclic children relation) happens within `lookup.size` rounds, so
any fuel of at least `lookup.size + 1` reproduces it.  Generation `i` is the
set of persons reachable from the roots by a children path of length `i`. -/
def generationsAux (m : PMap) : Nat → List String → List (List String)
  | 0, _ => []
  | fuel + 1, cur =>
      if cur.length = 0 then []
      else cur :: generationsAux m fuel (nextGeneration m cur)

/-- One atomic reveal action (lines 241, 249, 254): both variants carry
`ids = [person.id]` and `focusId = person.id`, so each is modelled by the
person id alone. -/
inductive RAction where
  | revealPeople (pid : String)
  | revealSpouses (pid : String)
  deriving Repr, DecidableEq

/-- One person slot of the action flattening loop (lines 244-257): skip a
visited person, otherwise emit its reveal, mark it visited, and emit the
spouse slot reveal when a spouse is resolved. -/
def revealStep (m : PMap) (acc : List RAction × List String) (pid : String) :
    List RAction × List String :=
  if acc.2.contains pid then acc
  else
    ((acc.1 ++ [RAction.revealPeople pid]) ++
       (match spouseOf m pid with
        | some _ => [RAction.revealSpouses pid]
        | none => []),
     setAdd acc.2 pid)

/-- The action-list construction (lines 241-258): iterate the generations in
order with a shared visited set. -/
def actionsOfGenerations (m : PMap) (gens : List (List String)) : List RAction :=
  (gens.foldl (fun acc gen => gen.foldl (revealStep m) acc) ([], [])).1

/-- The whole sequencer: the generations guard (line 224) plus the
flattening guard (line 242); both reduce to the same emptiness test. -/
def revealActions (m : PMap) (roots : List String) (fuel : Nat) : List RAction :=
  if roots.length = 0 then []
  else actionsOfGenerations m (generationsAux m fuel roots)

/-- The ids of the `revealPerson` actions of a list, in order. -/
def revealedIds (acts : List RAction) : List String :=
  acts.filterMap (fun a =>
    match a with
    | RAction.revealPeople pid => some pid
    | RAction.revealSpouses _ => none)

/-- Every `revealSpouse` action is immediately preceded by the
`revealPerson` action of the same person, and that person has a resolved
spouse. -/
def spouseAdjacent (m : PMap) : List RAction → Prop
  | [] => True
  | RAction.revealPeople p :: RAction.revealSpouses q :: rest =>
      p = q ∧ (spouseOf m p).isSome ∧ spouseAdjacent m rest
  | RAction.revealPeople _ :: rest => spouseAdjacent m rest
  | RAction.revealSpouses _ :: _ => False

/-- `handleSkipAnimation` (lines 391-399): the reveal-all escape sets the
visible id set to `new Set(peopleMap.keys())`. -/
def handleSkipAnimation (m : PMap) : List String :=
  (m.map (fun kv => kv.1)).foldl setAdd []

/-! ## The viewport engine

The pan/zoom state and handlers of `src/components/FamilyTree.tsx`.
Coordinates are exact rationals; the source invariably keeps
`scale` inside the clamp range `[0.2, 3]`. -/

/-- The viewport state: `pan` offset and uniform `scale` with transform
origin at the content origin. -/
structure Viewport where
  panX : ℚ
  panY : ℚ
  scale : ℚ
  deriving Repr, DecidableEq

/-- The scale clamp used by wheel and pinch zoom:
`Math.max(0.2, Math.min(newScale, 3))`. -/
def clampScale (s : ℚ) : ℚ := max (2/10) (min s 3)

/-- The content-space point currently under a screen-space pointer:
the inverse of `translate(pan) scale(scale)` with origin `0 0`. -/
def contentUnder (v : Viewport) (px py : ℚ) : ℚ × ℚ :=
  ((px - v.panX) / v.scale, (py - v.panY) / v.scale)

/-- The generic anchored zoom of the source, abstracted over the delta
factor: compute the content point under the pointer at the current
pan/scale, clamp the new scale, recompute pan so that content point stays
under the pointer.  `handleWheel` instantiates the factor with 0.9 or 1.1
and `handleTouchMove` (pinch) with the pinch distance ratio. -/
def zoomAt (v : Viewport) (px py f : ℚ) : Viewport :=
  let cx := (px - v.panX) / v.scale
  let cy := (py - v.panY) / v.scale
  let c := clampScale (v.scale * f)
  ⟨px - cx * c, py - cy * c, c⟩

/-- `handleWheel` (src/components/FamilyTree.tsx, lines 251-269):
`deltaYPos` is the sign test `e.deltaY > 0`; the zoom factor is 0.1. -/
def handleWheel (v : Viewport) (px py : ℚ) (deltaYPos : Bool) : Viewport :=
  let mx := px
  let my := py
  let cx := (mx - v.panX) / v.scale
  let cy := (my - v.panY) / v.scale
  let newScale := if deltaYPos then v.scale * (1 - 1/10) else v.scale * (1 + 1/10)
  let c := clampScale newScale
  ⟨mx - cx * c, my - cy * c, c⟩

/-- The pinch branch of `handleTouchMove` (lines 352-370): midpoint as
pointer, distance ratio as factor. -/
def handlePinch (v : Viewport) (midX midY lastDist newDist : ℚ) : Viewport :=
  let cx := (midX - v.panX) / v.scale
  let cy := (midY - v.panY) / v.scale
  let newScale := v.scale * (newDist / lastDist)
  let c := clampScale newScale
  ⟨midX - cx * c, midY - cy * c, c⟩

/-- The discrete step-zoom button `zoomIn` (line 421):
`setScale(s => Math.min(s * 1.2, 3))` - the pan is left untouched. -/
def zoomIn (v : Viewport) : Viewport :=
  { v with scale := min (v.scale * (12/10)) 3 }

/-- The discrete step-zoom button `zoomOut` (line 422):
`setScale(s => Math.max(s / 1.2, 0.2))` - the pan is left untouched. -/
def zoomOut (v : Viewport) : Viewport :=
  { v with scale := max (v.scale / (12/10)) (2/10) }

/-! ## The focus subtree resolver, over an explicit heap

`displayedRoots` (src/unnamed/part_009, lines 450-481) computes the focused
display forest from the shared lookup.  To make its no-mutation contract a
real statement, person objects live in an explicit heap of numbered
references: spreading an object is an allocation of a fresh reference, the
two `fatherClone.spouse = motherClone` assignments are writes.  The frame
theorem then says the computation never writes any pre-existing
reference. -/

/-- A person object on the heap: the identity and parent-link scalars plus
the reference-valued `children` and `spouse` fields.  The remaining scalar
fields are copied opaquely by every object spread and are omitted. -/
structure HPerson where
  pid : String
  fatherID : String
  motherID : String
  children : List Nat
  spouse : Option Nat
  deriving Repr, DecidableEq

/-- The heap: numbered person objects plus the next fresh reference. -/
structure Heap where
  mem : List (Nat × HPerson)
  next : Nat
  deriving Repr, DecidableEq

/-- Read a heap reference. -/
def hGet (h : Heap) (r : Nat) : Option HPerson :=
  (h.mem.find? (fun kv => kv.1 = r)).map (fun kv => kv.2)

/-- Allocate a fresh object (an object spread in the source). -/
def hAlloc (h : Heap) (p : HPerson) : Nat × Heap :=
  (h.next, ⟨h.mem ++ [(h.next, p)], h.next + 1⟩)

/-- Assign the `spouse` field of an existing object
(`clone.spouse = otherClone` in the source). -/
def hSetSpouse (h : Heap) (r : Nat) (s : Option Nat) : Heap :=
  ⟨h.mem.map (fun kv => if kv.1 = r then (kv.1, { kv.2 with spouse := s }) else kv),
   h.next⟩

/-- Heap well-formedness: every allocated reference is below `next`. -/
def hWF (h : Heap) : Prop :=
  ∀ kv ∈ h.mem, kv.1 < h.next

/-- The people map of the heap embedding: id to reference. -/
abbrev RMap := List (String × Nat)

/-- Dereference a map id to its person object. -/
def lookupPerson (pm : RMap) (h : Heap) (fid : String) : Option HPerson :=
  match pm.find? (fun kv => kv.1 = fid) with
  | none => none
  | some kv => hGet h kv.2

/-- `person.children.map(child => peopleMap.get(child.id)!)`: dereference
each child, then re-fetch it from the map by id.  The source asserts the
map entry exists (it always does for a graph-built lookup); an absent entry
is skipped here to keep the model total. -/
def resolveChildren (pm : RMap) (h : Heap) (refs : List Nat) : List HPerson :=
  refs.filterMap (fun c =>
    (hGet h c).bind (fun child => lookupPerson pm h child.pid))

/-- `buildDescendantTree` (lines 455-461) lifted to a list of persons so
the recursion is structural in the fuel: build the descendant tree of every
person in order, threading the heap.  Each tree node is a spread
(`{...person, children: fullChildren}`), an allocation.  Fuel bounds the
recursion depth; the JS recursion terminates exactly on forests, and any
fuel at least the forest height reproduces it (at fuel 0 nothing is
built). -/
def buildForest (pm : RMap) : Nat → List HPerson → Heap → List Nat × Heap
  | 0, _, h => ([], h)
  | _ + 1, [], h => ([], h)
  | fuel + 1, p :: rest, h =>
      let cs := buildForest pm fuel (resolveChildren pm h p.children) h
      let node := hAlloc cs.2 { p with children := cs.1 }
      let rs := buildForest pm fuel rest node.2
      (node.1 :: rs.1, rs.2)

/-- The focused branch of `displayedRoots` (lines 452-480): the focused
person descendant subtree is deep-copied, and the one or two parents are
cloned with their children forced to the focused subtree and their mutual
spouse link re-established between the clones. -/
def displayedRootsFocused (pm : RMap) (fuel : Nat) (h : Heap)
    (fid : String) : List Nat × Heap :=
  match lookupPerson pm h fid with
      | none => ([], h)
      | some fp =>
          let sub := buildForest pm fuel [fp] h
          match sub.1 with
          | [] => ([], sub.2)
          | subRef :: _ =>
              let fatherOpt :=
                if truthy fp.fatherID then lookupPerson pm sub.2 fp.fatherID else none
              let motherOpt :=
                if truthy fp.motherID then lookupPerson pm sub.2 fp.motherID else none
              match fatherOpt, motherOpt with
              | none, none => ([subRef], sub.2)
              | some f, none =>
                  let fc := hAlloc sub.2 { f with children := [subRef], spouse := none }
                  ([fc.1], fc.2)
              | none, some mo =>
                  let mc := hAlloc sub.2 { mo with children := [subRef], spouse := none }
                  ([mc.1], mc.2)
              | some f, some mo =>
                  let fc := hAlloc sub.2 { f with children := [subRef], spouse := none }
                  let mc := hAlloc fc.2 { mo with children := [subRef], spouse := none }
                  let h4 := hSetSpouse mc.2 fc.1 (some mc.1)
                  let h5 := hSetSpouse h4 mc.1 (some fc.1)
                  ([fc.1], h5)

/-- `displayedRoots` (lines 450-481): without a focus the live roots are
returned as is, otherwise the focused display forest is computed. -/
def displayedRoots (pm : RMap) (fuel : Nat) (h : Heap)
    (focusedPersonId : Option String) (roots : List Nat) : List Nat × Heap :=
  match focusedPersonId with
  | none => (roots, h)
  | some fid => displayedRootsFocused pm fuel h fid

/-! ## Association list and set lemmas -/

/-- The keys of a people map, in order. -/
def keys (m : PMap) : List String := m.map (fun kv => kv.1)

theorem mapGet_cons_pos {kv : String × Entry} {rest : PMap} {k : String}
    (h : kv.1 = k) : mapGet (kv :: rest) k = some kv.2 := by
  simp [mapGet, List.find?_cons_of_pos, h]

theorem mapGet_cons_neg {kv : String × Entry} {rest : PMap} {k : String}
    (h : ¬ kv.1 = k) : mapGet (kv :: rest) k = mapGet rest k := by
  have hp : (fun kv : String × Entry => decide (kv.1 = k)) kv = false := by simp [h]
  simp only [mapGet]
  rw [List.find?_cons_of_neg _ (by simp [h])]

theorem mapGet_isSome_iff {m : PMap} {k : String} :
    (mapGet m k).isSome = true ↔ k ∈ keys m := by
  induction m with
  | nil => simp [mapGet, keys]
  | cons kv rest ih =>
      by_cases h : kv.1 = k
      · simp [mapGet_cons_pos h, keys, h]
      · rw [mapGet_cons_neg h]
        simp only [keys, List.map_cons, List.mem_cons]
        rw [ih]
        simp only [keys]
        constructor
        · exact fun hh => Or.inr hh
        · rintro (hh | hh)
          · exact absurd hh.symm h
          · exact hh

theorem mapGet_eq_none_iff {m : PMap} {k : String} :
    mapGet m k = none ↔ k ∉ keys m := by
  rw [← mapGet_isSome_iff]
  cases mapGet m k <;> simp

theorem mem_of_mapGet {m : PMap} {k : String} {e : Entry}
    (h : mapGet m k = some e) : (k, e) ∈ m := by
  induction m with
  | nil => simp [mapGet] at h
  | cons kv rest ih =>
      by_cases hk : kv.1 = k
      · rw [mapGet_cons_pos hk] at h
        obtain rfl : kv.2 = e := Option.some.inj h
        have hkv : kv = (k, kv.2) := by
          cases kv
          simpa using hk
        rw [← hkv]
        exact List.mem_cons_self kv rest
      · rw [mapGet_cons_neg hk] at h
        exact List.mem_cons_of_mem _ (ih h)

theorem mapGet_of_mem_nodup {m : PMap} {k : String} {e : Entry}
    (hnd : (keys m).Nodup) (h : (k, e) ∈ m) : mapGet m k = some e := by
  induction m with
  | nil => simp at h
  | cons kv rest ih =>
      simp only [keys, List.map_cons, List.nodup_cons] at hnd
      rcases List.mem_cons.mp h with heq | hmem
      · subst heq
        exact mapGet_cons_pos rfl
      · have hk : ¬ kv.1 = k := by
          intro hkk
          exact hnd.1 (hkk ▸ (List.mem_map.mpr ⟨(k, e), hmem, rfl⟩))
        rw [mapGet_cons_neg hk]
        exact ih hnd.2 hmem

theorem map_eq_self_of {α : Type} (f : α → α) (l : List α)
    (h : ∀ x ∈ l, f x = x) : l.map f = l := by
  induction l with
  | nil => rfl
  | cons a rest ih =>
      simp only [List.map_cons, h a (by simp)]
      rw [ih (fun x hx => h x (List.mem_cons_of_mem _ hx))]

theorem keys_mapSet_of_mem {m : PMap} {k : String} (v : Entry)
    (h : k ∈ keys m) : keys (mapSet m k v) = keys m := by
  have hany : m.any (fun kv => kv.1 = k) = true := by
    rcases List.mem_map.mp h with ⟨kv, hkv, hk⟩
    exact List.any_eq_true.mpr ⟨kv, hkv, by simp [hk]⟩
  simp only [mapSet, hany, if_true, keys, List.map_map]
  apply List.map_congr_left
  intro kv _
  by_cases hk : kv.1 = k <;> simp [hk]

theorem mapSet_of_not_mem {m : PMap} {k : String} (v : Entry)
    (h : k ∉ keys m) : mapSet m k v = m ++ [(k, v)] := by
  have hany : m.any (fun kv => kv.1 = k) = false := by
    rw [List.any_eq_false]
    intro kv hkv
    simp only [decide_eq_true_eq]
    intro hk
    exact h (List.mem_map.mpr ⟨kv, hkv, hk⟩)
  simp [mapSet, hany]

theorem mapSet_of_mem_map {m : PMap} {k : String} (v : Entry)
    (h : m.any (fun kv => kv.1 = k) = true) :
    mapSet m k v = m.map (fun kv => if kv.1 = k then (k, v) else kv) := by
  simp [mapSet, h]

theorem keys_mapSet_of_not_mem {m : PMap} {k : String} (v : Entry)
    (h : k ∉ keys m) : keys (mapSet m k v) = keys m ++ [k] := by
  rw [mapSet_of_not_mem v h]
  simp [keys]

theorem mapGet_mapSet_self {m : PMap} {k : String} (v : Entry) :
    mapGet (mapSet m k v) k = some v := by
  by_cases hany : m.any (fun kv => kv.1 = k) = true
  · rw [mapSet_of_mem_map v hany]
    induction m with
    | nil => simp at hany
    | cons kv rest ih =>
        by_cases hk : kv.1 = k
        · simp only [List.map_cons, hk, if_true]
          exact mapGet_cons_pos rfl
        · simp only [List.map_cons, hk, if_false]
          rw [mapGet_cons_neg hk]
          apply ih
          simp only [List.any_cons] at hany
          rcases Bool.or_eq_true_iff.mp hany with hh | hh
          · exact absurd (by simpa using hh) hk
          · exact hh
  · simp only [Bool.not_eq_true] at hany
    have hk : k ∉ keys m := by
      intro hmem
      rcases List.mem_map.mp hmem with ⟨kv, hkv, hkk⟩
      have := List.any_eq_false.mp hany kv hkv
      simp [hkk] at this
    rw [mapSet_of_not_mem v hk]
    have h1 : mapGet m k = none := mapGet_eq_none_iff.mpr hk
    simp only [mapGet] at h1 ⊢
    rw [List.find?_append]
    cases hfind : List.find? (fun kv => decide (kv.1 = k)) m with
    | none => simp [List.find?_cons_of_pos]
    | some kv => rw [hfind] at h1; simp at h1

theorem mapGet_mapSet_ne {m : PMap} {k k2 : String} (v : Entry)
    (h : k2 ≠ k) : mapGet (mapSet m k v) k2 = mapGet m k2 := by
  by_cases hany : m.any (fun kv => kv.1 = k) = true
  · rw [mapSet_of_mem_map v hany]
    clear hany
    induction m with
    | nil => simp
    | cons kv rest ih =>
        by_cases hk : kv.1 = k
        · have hne : ¬ (k = k2) := fun hh => h hh.symm
          simp only [List.map_cons, hk, if_true]
          rw [mapGet_cons_neg hne, mapGet_cons_neg (by rw [hk]; exact hne)]
          exact ih
        · simp only [List.map_cons, hk, if_false]
          by_cases hk2 : kv.1 = k2
          · rw [mapGet_cons_pos hk2, mapGet_cons_pos hk2]
          · rw [mapGet_cons_neg hk2, mapGet_cons_neg hk2]
            exact ih
  · simp only [Bool.not_eq_true] at hany
    have hk : k ∉ keys m := by
      intro hmem
      rcases List.mem_map.mp hmem with ⟨kv, hkv, hkk⟩
      have := List.any_eq_false.mp hany kv hkv
      simp [hkk] at this
    rw [mapSet_of_not_mem v hk]
    simp only [mapGet]
    rw [List.find?_append]
    have h2 : List.find? (fun kv => decide (kv.1 = k2)) [(k, v)] = none := by
      rw [List.find?_cons_of_neg _ (by simp; exact fun hh => h hh.symm)]
      rfl
    rw [h2]
    cases m.find? (fun kv => decide (kv.1 = k2)) <;> simp

theorem mem_setAdd {s : List String} {x y : String} :
    y ∈ setAdd s x ↔ y ∈ s ∨ y = x := by
  by_cases hx : x ∈ s
  · have hc : s.contains x = true := by simpa using hx
    simp only [setAdd, hc, if_true]
    constructor
    · exact fun hy => Or.inl hy
    · rintro (hy | rfl)
      · exact hy
      · exact hx
  · have hc : s.contains x = false := by simpa using hx
    simp only [setAdd, hc, Bool.false_eq_true, if_false, List.mem_append,
      List.mem_singleton]

theorem setAdd_subset {s : List String} {x : String} : s ⊆ setAdd s x := by
  intro y hy
  exact mem_setAdd.mpr (Or.inl hy)

theorem mem_foldl_setAdd {l : List String} :
    ∀ {acc x}, x ∈ l.foldl setAdd acc ↔ x ∈ acc ∨ x ∈ l := by
  induction l with
  | nil => simp
  | cons a rest ih =>
      intro acc x
      simp only [List.foldl_cons]
      rw [ih, mem_setAdd]
      simp only [List.mem_cons]
      tauto

theorem nodup_setAdd {s : List String} (h : s.Nodup) (x : String) :
    (setAdd s x).Nodup := by
  by_cases hx : x ∈ s
  · simpa [setAdd, hx] using h
  · have hc : s.contains x = false := by simpa using hx
    simp only [setAdd, hc, Bool.false_eq_true, if_false]
    rw [List.nodup_append]
    refine ⟨h, List.nodup_singleton x, ?_⟩
    intro a ha hax
    simp only [List.mem_singleton] at hax
    exact hx (hax ▸ ha)

theorem nodup_foldl_setAdd {l : List String} :
    ∀ {acc}, acc.Nodup → (l.foldl setAdd acc).Nodup := by
  induction l with
  | nil => exact fun h => h
  | cons a rest ih =>
      intro acc h
      exact ih (nodup_setAdd h a)

theorem foldl_setAdd_of_nodup {l : List String} :
    ∀ {acc}, (acc ++ l).Nodup → l.foldl setAdd acc = acc ++ l := by
  induction l with
  | nil => intro acc _; simp
  | cons a rest ih =>
      intro acc h
      have ha : a ∉ acc := by
        intro hmem
        rcases List.nodup_append.mp h with ⟨_, _, hdis⟩
        exact hdis hmem (by simp)
      have hc : acc.contains a = false := by simpa using ha
      simp only [List.foldl_cons, setAdd, hc, Bool.false_eq_true, if_false]
      rw [ih (by simpa using h)]
      simp

/-! ## Pipeline phase characterizations -/

/-- All map phases keep the key of every entry equal to the id of the stored
person. -/
def keyed (m : PMap) : Prop := ∀ kv ∈ m, kv.1 = kv.2.person.id

theorem keyed_mapSet {m : PMap} {k : String} {v : Entry}
    (hm : keyed m) (hv : k = v.person.id) : keyed (mapSet m k v) := by
  intro kv hkv
  by_cases hany : m.any (fun kv => kv.1 = k) = true
  · rw [mapSet_of_mem_map v hany] at hkv
    rcases List.mem_map.mp hkv with ⟨kv0, hkv0, heq⟩
    by_cases hk : kv0.1 = k
    · simp only [hk, if_true] at heq
      rw [← heq]
      exact hv
    · simp only [hk, if_false] at heq
      exact heq ▸ hm kv0 hkv0
  · simp only [Bool.not_eq_true] at hany
    have hk : k ∉ keys m := by
      intro hmem
      rcases List.mem_map.mp hmem with ⟨kv0, hkv0, hkk⟩
      have := List.any_eq_false.mp hany kv0 hkv0
      simp [hkk] at this
    rw [mapSet_of_not_mem v hk] at hkv
    rcases List.mem_append.mp hkv with hmem | hmem
    · exact hm kv hmem
    · simp only [List.mem_singleton] at hmem
      rw [hmem]
      exact hv

theorem keyed_insertPeople (people : List Person) : keyed (insertPeople people) := by
  suffices h : ∀ (m : PMap), keyed m →
      keyed (people.foldl (fun m p => mapSet m p.id ⟨p, [], none⟩) m) by
    exact h [] (fun kv hkv => by simp at hkv)
  induction people with
  | nil => exact fun m hm => hm
  | cons p rest ih =>
      intro m hm
      exact ih _ (keyed_mapSet hm rfl)

theorem keys_insertPeople (people : List Person) :
    keys (insertPeople people) = (people.map (fun p => p.id)).foldl setAdd [] := by
  suffices h : ∀ (m : PMap),
      keys (people.foldl (fun m p => mapSet m p.id ⟨p, [], none⟩) m) =
        (people.map (fun p => p.id)).foldl setAdd (keys m) by
    exact h []
  induction people with
  | nil => intro m; rfl
  | cons p rest ih =>
      intro m
      simp only [List.foldl_cons, List.map_cons]
      rw [ih]
      congr 1
      by_cases hk : p.id ∈ keys m
      · rw [keys_mapSet_of_mem _ hk]
        have hc : (keys m).contains p.id = true := by simpa using hk
        simp [setAdd, hk]
      · rw [keys_mapSet_of_not_mem _ hk]
        have hc : (keys m).contains p.id = false := by simpa using hk
        simp only [setAdd, hc, Bool.false_eq_true, if_false]

theorem keysNodup_insertPeople (people : List Person) :
    (keys (insertPeople people)).Nodup := by
  rw [keys_insertPeople]
  exact nodup_foldl_setAdd List.nodup_nil

theorem length_eq_keys_length (m : PMap) : m.length = (keys m).length := by
  simp [keys]

/-- With pairwise distinct person ids, phase 1 stores one entry per person. -/
theorem insertPeople_length {people : List Person}
    (h : (people.map (fun p => p.id)).Nodup) :
    (insertPeople people).length = people.length := by
  rw [length_eq_keys_length, keys_insertPeople,
    foldl_setAdd_of_nodup (by simpa using h)]
  simp

theorem mem_keys_mapSet {m : PMap} {k x : String} {v : Entry}
    (h : x ∈ keys (mapSet m k v)) : x ∈ keys m ∨ x = k := by
  by_cases hany : m.any (fun kv => kv.1 = k) = true
  · rw [mapSet_of_mem_map v hany] at h
    simp only [keys, List.map_map] at h
    rcases List.mem_map.mp h with ⟨kv, hkv, hx⟩
    by_cases hkk : kv.1 = k
    · simp only [Function.comp, hkk, if_true] at hx
      exact Or.inr hx.symm
    · simp only [Function.comp, hkk, if_false] at hx
      exact Or.inl (hx ▸ List.mem_map.mpr ⟨kv, hkv, rfl⟩)
  · simp only [Bool.not_eq_true] at hany
    have hk : k ∉ keys m := by
      intro hmemk
      rcases List.mem_map.mp hmemk with ⟨kv0, hkv0, hkk⟩
      have := List.any_eq_false.mp hany kv0 hkv0
      simp [hkk] at this
    rw [keys_mapSet_of_not_mem v hk] at h
    simpa using h

theorem mem_mapSet_of_ne {m : PMap} {k0 : String} {v0 : Entry} {k : String}
    (v : Entry) (hmem : (k0, v0) ∈ m) (hne : k0 ≠ k) : (k0, v0) ∈ mapSet m k v := by
  by_cases hany : m.any (fun kv => kv.1 = k) = true
  · rw [mapSet_of_mem_map v hany]
    exact List.mem_map.mpr ⟨(k0, v0), hmem, by simp [hne]⟩
  · simp only [Bool.not_eq_true] at hany
    have hk : k ∉ keys m := by
      intro hmemk
      rcases List.mem_map.mp hmemk with ⟨kv0, hkv0, hkk⟩
      have := List.any_eq_false.mp hany kv0 hkv0
      simp [hkk] at this
    rw [mapSet_of_not_mem v hk]
    exact List.mem_append_left _ hmem

theorem mem_foldl_insert_preserved {people : List Person} :
    ∀ {m : PMap} {k0 : String} {v0 : Entry}, (k0, v0) ∈ m →
      (∀ q ∈ people, q.id ≠ k0) →
      (k0, v0) ∈ people.foldl (fun m p => mapSet m p.id ⟨p, [], none⟩) m := by
  induction people with
  | nil => exact fun hmem _ => hmem
  | cons q rest ih =>
      intro m k0 v0 hmem hne
      simp only [List.foldl_cons]
      exact ih (mem_mapSet_of_ne _ hmem (fun hh => hne q (by simp) hh.symm))
        (fun r hr => hne r (List.mem_cons_of_mem _ hr))

/-- Membership of a person under its id after phase 1 (distinct ids). -/
theorem mapGet_insertPeople {people : List Person} {p : Person}
    (h : (people.map (fun p => p.id)).Nodup) (hp : p ∈ people) :
    mapGet (insertPeople people) p.id = some ⟨p, [], none⟩ := by
  suffices hmem : (p.id, (⟨p, [], none⟩ : Entry)) ∈ insertPeople people by
    exact mapGet_of_mem_nodup (keysNodup_insertPeople people) hmem
  suffices h2 : ∀ (m : PMap), p.id ∉ keys m →
      (p.id, (⟨p, [], none⟩ : Entry)) ∈
        people.foldl (fun m p => mapSet m p.id ⟨p, [], none⟩) m by
    exact h2 [] (by simp [keys])
  induction people with
  | nil => simp at hp
  | cons q rest ih =>
      intro m hfresh
      simp only [List.map_cons, List.nodup_cons] at h
      simp only [List.foldl_cons]
      rcases List.mem_cons.mp hp with rfl | hmem
      · have hpair : (p.id, (⟨p, [], none⟩ : Entry)) ∈ mapSet m p.id ⟨p, [], none⟩ := by
          rw [mapSet_of_not_mem _ hfresh]
          exact List.mem_append_right _ (by simp)
        exact mem_foldl_insert_preserved hpair
          (fun r hr hrid => h.1 (hrid ▸ List.mem_map.mpr ⟨r, hr, rfl⟩))
      · have hne : p.id ≠ q.id := by
          intro hh
          exact h.1 (hh ▸ List.mem_map.mpr ⟨p, hmem, rfl⟩)
        apply ih h.2 hmem
        intro hmemk
        rcases mem_keys_mapSet hmemk with hh | hh
        · exact hfresh hh
        · exact hne hh

/-- A generic key-fixing map commutes with lookup. -/
theorem mapGet_mapValues (G : Entry → Entry) (m : PMap) (k : String) :
    mapGet (m.map (fun kv => (kv.1, G kv.2))) k = (mapGet m k).map G := by
  induction m with
  | nil => rfl
  | cons kv rest ih =>
      by_cases hk : kv.1 = k
      · rw [List.map_cons, mapGet_cons_pos (by simpa using hk), mapGet_cons_pos hk]
        rfl
      · rw [List.map_cons, mapGet_cons_neg (by simpa using hk), mapGet_cons_neg hk]
        exact ih

/-- The spouse-link transformation of one entry value, with the membership
test taken in the full (fixed) map. -/
def linkFn (m : PMap) (e : Entry) : Entry :=
  if truthy e.person.partnerId && (mapGet m e.person.partnerId).isSome then
    { e with spouse := some e.person.partnerId }
  else e

theorem linkSpouses_eq_mapValues (m : PMap) :
    linkSpouses m = m.map (fun kv => (kv.1, linkFn m kv.2)) := by
  apply List.map_congr_left
  intro kv _
  cases kv with
  | mk k e =>
      simp only [linkFn]
      split <;> rfl

theorem mapGet_linkSpouses (m : PMap) (k : String) :
    mapGet (linkSpouses m) k = (mapGet m k).map (linkFn m) := by
  rw [linkSpouses_eq_mapValues]
  exact mapGet_mapValues _ m k

theorem keys_linkSpouses (m : PMap) : keys (linkSpouses m) = keys m := by
  rw [linkSpouses_eq_mapValues]
  simp [keys, List.map_map, Function.comp]

theorem keyed_linkSpouses {m : PMap} (h : keyed m) : keyed (linkSpouses m) := by
  rw [linkSpouses_eq_mapValues]
  intro kv hkv
  rcases List.mem_map.mp hkv with ⟨kv0, hkv0, heq⟩
  rw [← heq]
  have := h kv0 hkv0
  simp only [linkFn]
  split <;> simpa using this

/-- The child-sorting transformation of one entry value, with birth dates
resolved in the full (fixed) map. -/
def sortFn (m : PMap) (e : Entry) : Entry :=
  if e.children.length > 1 then
    { e with children := jsSort (fun a b => cmpBirth (bdOf m a) (bdOf m b)) e.children }
  else e

theorem sortChildren_eq_mapValues (m : PMap) :
    sortChildren m = m.map (fun kv => (kv.1, sortFn m kv.2)) := by
  apply List.map_congr_left
  intro kv _
  cases kv with
  | mk k e =>
      simp only [sortFn]
      split <;> rfl

theorem mapGet_sortChildren (m : PMap) (k : String) :
    mapGet (sortChildren m) k = (mapGet m k).map (sortFn m) := by
  rw [sortChildren_eq_mapValues]
  exact mapGet_mapValues _ m k

theorem keys_sortChildren (m : PMap) : keys (sortChildren m) = keys m := by
  rw [sortChildren_eq_mapValues]
  simp [keys, List.map_map, Function.comp]

theorem keyed_sortChildren {m : PMap} (h : keyed m) : keyed (sortChildren m) := by
  rw [sortChildren_eq_mapValues]
  intro kv hkv
  rcases List.mem_map.mp hkv with ⟨kv0, hkv0, heq⟩
  rw [← heq]
  have := h kv0 hkv0
  simp only [sortFn]
  split <;> simpa using this

/-! ### Attachment phase -/

theorem attachStep_keys (acc : PMap × List String) (pid parentId : String) :
    keys (attachStep acc pid parentId).1 = keys acc.1 := by
  unfold attachStep
  cases hget : mapGet acc.1 parentId with
  | none => rfl
  | some parent =>
      simp only
      by_cases hc : parent.children.any (fun c => c = pid) = true
      · simp [hc]
      · simp only [Bool.not_eq_true] at hc
        simp only [hc, Bool.false_eq_true, if_false]
        exact keys_mapSet_of_mem _ (mapGet_isSome_iff.mp (by simp [hget]))

/-- The attach step never changes the person or spouse component of any
entry. -/
theorem attachStep_pv (acc : PMap × List String) (pid parentId k : String) :
    ((mapGet (attachStep acc pid parentId).1 k).map
        (fun e => (e.person, e.spouse))) =
      ((mapGet acc.1 k).map (fun e => (e.person, e.spouse))) := by
  unfold attachStep
  cases hget : mapGet acc.1 parentId with
  | none => rfl
  | some parent =>
      simp only
      by_cases hc : parent.children.any (fun c => c = pid) = true
      · simp [hc]
      · simp only [Bool.not_eq_true] at hc
        simp only [hc, Bool.false_eq_true, if_false]
        by_cases hk : k = parentId
        · subst hk
          rw [mapGet_mapSet_self, hget]
          rfl
        · rw [mapGet_mapSet_ne _ hk]

/-- Children in the attach-step result either were already attached or are
the attached pair itself. -/
theorem attachStep_children_sub {acc : PMap × List String} {pid parentId k c : String}
    (h : c ∈ childrenOf (attachStep acc pid parentId).1 k) :
    c ∈ childrenOf acc.1 k ∨ (c = pid ∧ k = parentId) := by
  unfold attachStep at h
  cases hget : mapGet acc.1 parentId with
  | none =>
      rw [hget] at h
      exact Or.inl h
  | some parent =>
      rw [hget] at h
      simp only at h
      by_cases hc : parent.children.any (fun c => c = pid) = true
      · simp only [hc, if_true] at h
        exact Or.inl h
      · simp only [Bool.not_eq_true] at hc
        simp only [hc, Bool.false_eq_true, if_false] at h
        by_cases hk : k = parentId
        · subst hk
          simp only [childrenOf, mapGet_mapSet_self] at h
          rcases List.mem_append.mp h with hh | hh
          · exact Or.inl (by simpa [childrenOf, hget] using hh)
          · simp only [List.mem_singleton] at hh
            exact Or.inr ⟨hh, rfl⟩
        · rw [childrenOf, mapGet_mapSet_ne _ hk] at h
          exact Or.inl (by simpa [childrenOf] using h)

/-- The attach step keeps every children list duplicate-free. -/
theorem attachStep_children_nodup {acc : PMap × List String} {pid parentId : String}
    (h : ∀ k, (childrenOf acc.1 k).Nodup) (k : String) :
    (childrenOf (attachStep acc pid parentId).1 k).Nodup := by
  unfold attachStep
  cases hget : mapGet acc.1 parentId with
  | none => exact h k
  | some parent =>
      simp only
      by_cases hc : parent.children.any (fun c => c = pid) = true
      · simp only [hc, if_true]
        exact h k
      · simp only [Bool.not_eq_true] at hc
        simp only [hc, Bool.false_eq_true, if_false]
        by_cases hk : k = parentId
        · subst hk
          simp only [childrenOf, mapGet_mapSet_self]
          have hpid : pid ∉ parent.children := by
            intro hmem
            have := List.any_eq_false.mp hc pid hmem
            simp at this
          have hbase : parent.children.Nodup := by
            have := h k
            simpa [childrenOf, hget] using this
          rw [List.nodup_append]
          refine ⟨hbase, List.nodup_singleton pid, ?_⟩
          intro a ha hax
          simp only [List.mem_singleton] at hax
          exact hpid (hax ▸ ha)
        · rw [childrenOf, mapGet_mapSet_ne _ hk]
          have := h k
          simpa [childrenOf] using this

/-- New non-root marks of the attach step. -/
theorem attachStep_nonRoots_sub {acc : PMap × List String} {pid parentId x : String}
    (h : x ∈ (attachStep acc pid parentId).2) :
    x ∈ acc.2 ∨ (x = pid ∧ parentId ∈ keys acc.1) := by
  unfold attachStep at h
  cases hget : mapGet acc.1 parentId with
  | none =>
      rw [hget] at h
      exact Or.inl h
  | some parent =>
      rw [hget] at h
      simp only at h
      rcases mem_setAdd.mp h with hh | hh
      · exact Or.inl hh
      · exact Or.inr ⟨hh, mapGet_isSome_iff.mp (by simp [hget])⟩

/-- The non-root set never loses members. -/
theorem attachStep_nonRoots_mono {acc : PMap × List String} {pid parentId x : String}
    (h : x ∈ acc.2) : x ∈ (attachStep acc pid parentId).2 := by
  unfold attachStep
  cases hget : mapGet acc.1 parentId with
  | none => exact h
  | some parent => exact setAdd_subset h

/-- The attachment loop, flattened: the (child id, parent id) pairs it
processes, in order. -/
def attachPairs (m : PMap) : List (String × String) :=
  m.flatMap (fun kv => kv.2.person.parentsIds.map (fun par => (kv.2.person.id, par)))

theorem attachChildren_eq_foldl (m : PMap) :
    attachChildren m =
      (attachPairs m).foldl (fun acc pr => attachStep acc pr.1 pr.2) (m, []) := by
  unfold attachChildren attachPairs
  rw [List.flatMap_def, List.foldl_flatten, List.foldl_map]
  congr 1
  funext acc kv
  rw [List.foldl_map]

theorem foldl_attachStep_keys (ps : List (String × String)) :
    ∀ (acc : PMap × List String),
      keys (ps.foldl (fun a pr => attachStep a pr.1 pr.2) acc).1 = keys acc.1 := by
  induction ps with
  | nil => intro acc; rfl
  | cons pr rest ih =>
      intro acc
      rw [List.foldl_cons, ih]
      exact attachStep_keys acc pr.1 pr.2

theorem foldl_attachStep_pv (ps : List (String × String)) :
    ∀ (acc : PMap × List String) (k : String),
      ((mapGet (ps.foldl (fun a pr => attachStep a pr.1 pr.2) acc).1 k).map
          (fun e => (e.person, e.spouse))) =
        ((mapGet acc.1 k).map (fun e => (e.person, e.spouse))) := by
  induction ps with
  | nil => intro acc k; rfl
  | cons pr rest ih =>
      intro acc k
      rw [List.foldl_cons, ih]
      exact attachStep_pv acc pr.1 pr.2 k

theorem foldl_attachStep_children_sub {ps : List (String × String)} :
    ∀ {acc : PMap × List String} {k c : String},
      c ∈ childrenOf (ps.foldl (fun a pr => attachStep a pr.1 pr.2) acc).1 k →
      c ∈ childrenOf acc.1 k ∨ (c, k) ∈ ps := by
  induction ps with
  | nil => exact fun h => Or.inl h
  | cons pr rest ih =>
      intro acc k c h
      rw [List.foldl_cons] at h
      rcases ih h with hh | hh
      · rcases attachStep_children_sub hh with h2 | h2
        · exact Or.inl h2
        · right
          rw [List.mem_cons]
          left
          cases pr
          simp only at h2
          simp [h2.1, h2.2]
      · exact Or.inr (List.mem_cons_of_mem _ hh)

theorem foldl_attachStep_children_nodup {ps : List (String × String)} :
    ∀ {acc : PMap × List String}, (∀ k, (childrenOf acc.1 k).Nodup) →
      ∀ k, (childrenOf (ps.foldl (fun a pr => attachStep a pr.1 pr.2) acc).1 k).Nodup := by
  induction ps with
  | nil => exact fun h => h
  | cons pr rest ih =>
      intro acc h
      simp only [List.foldl_cons]
      exact ih (fun k => attachStep_children_nodup h k)

theorem foldl_attachStep_nonRoots_sub {ps : List (String × String)} :
    ∀ {acc : PMap × List String} {x : String},
      x ∈ (ps.foldl (fun a pr => attachStep a pr.1 pr.2) acc).2 →
      x ∈ acc.2 ∨ ∃ par, (x, par) ∈ ps ∧ par ∈ keys acc.1 := by
  induction ps with
  | nil => exact fun h => Or.inl h
  | cons pr rest ih =>
      intro acc x h
      rw [List.foldl_cons] at h
      rcases ih h with hh | hh
      · rcases attachStep_nonRoots_sub hh with h2 | h2
        · exact Or.inl hh |>.imp_left (fun _ => h2)
        · right
          exact ⟨pr.2, by rw [List.mem_cons]; left; cases pr; simp [h2.1], h2.2⟩
      · rcases hh with ⟨par, hmem, hkeys⟩
        right
        refine ⟨par, List.mem_cons_of_mem _ hmem, ?_⟩
        rw [← attachStep_keys acc pr.1 pr.2]
        exact hkeys

/-! ### Whole-pipeline facts -/

theorem keys_buildGraph (people : List Person) :
    keys (buildGraph people).lookup = keys (insertPeople people) := by
  by_cases h : people.length = 0
  · have : people = [] := List.length_eq_zero.mp h
    subst this
    rfl
  · simp only [buildGraph, h, if_false]
    rw [keys_sortChildren, attachChildren_eq_foldl, foldl_attachStep_keys,
      keys_linkSpouses]

theorem keysNodup_buildGraph (people : List Person) :
    (keys (buildGraph people).lookup).Nodup := by
  rw [keys_buildGraph]
  exact keysNodup_insertPeople people

theorem keyed_foldl_attachStep (ps : List (String × String)) :
    ∀ {acc : PMap × List String}, keyed acc.1 →
      keyed (ps.foldl (fun a pr => attachStep a pr.1 pr.2) acc).1 := by
  induction ps with
  | nil => exact fun h => h
  | cons pr rest ih =>
      intro acc h
      simp only [List.foldl_cons]
      apply ih
      unfold attachStep
      cases hget : mapGet acc.1 pr.2 with
      | none => exact h
      | some parent =>
          simp only
          by_cases hc : parent.children.any (fun c => c = pr.1) = true
          · simpa [hc] using h
          · simp only [Bool.not_eq_true] at hc
            simp only [hc, Bool.false_eq_true, if_false]
            apply keyed_mapSet h
            have := h _ (mem_of_mapGet hget)
            exact this

theorem keyed_buildGraph (people : List Person) : keyed (buildGraph people).lookup := by
  by_cases h : people.length = 0
  · have : people = [] := List.length_eq_zero.mp h
    subst this
    intro kv hkv
    simp [buildGraph] at hkv
  · simp only [buildGraph, h, if_false]
    apply keyed_sortChildren
    rw [attachChildren_eq_foldl]
    exact keyed_foldl_attachStep _ (keyed_linkSpouses (keyed_insertPeople people))

/-- The person and spouse of every lookup member are fixed at the
spouse-linking stage: attachment and sorting touch only children lists. -/
theorem pv_buildGraph (people : List Person) (k : String) (h : people.length ≠ 0) :
    ((mapGet (buildGraph people).lookup k).map (fun e => (e.person, e.spouse))) =
      ((mapGet (linkSpouses (insertPeople people)) k).map
        (fun e => (e.person, e.spouse))) := by
  simp only [buildGraph, h, if_false]
  rw [mapGet_sortChildren]
  have hsort : ∀ (mm : PMap) (oe : Option Entry),
      ((oe.map (sortFn mm)).map (fun e => (e.person, e.spouse))) =
        (oe.map (fun e => (e.person, e.spouse))) := by
    intro mm oe
    cases oe with
    | none => rfl
    | some e =>
        simp only [Option.map_some']
        unfold sortFn
        split <;> rfl
  rw [hsort]
  rw [attachChildren_eq_foldl]
  exact foldl_attachStep_pv _ _ k

/-- Every phase-1 entry starts with an empty children list and no spouse. -/
theorem insertPeople_fresh (people : List Person) :
    ∀ kv ∈ insertPeople people, kv.2.children = [] ∧ kv.2.spouse = none := by
  suffices h : ∀ (m : PMap), (∀ kv ∈ m, kv.2.children = [] ∧ kv.2.spouse = none) →
      ∀ kv ∈ people.foldl (fun m p => mapSet m p.id ⟨p, [], none⟩) m,
        kv.2.children = [] ∧ kv.2.spouse = none by
    exact h [] (by simp)
  induction people with
  | nil => exact fun m hm => hm
  | cons p rest ih =>
      intro m hm
      simp only [List.foldl_cons]
      apply ih
      intro kv hkv
      by_cases hany : m.any (fun kv => kv.1 = p.id) = true
      · rw [mapSet_of_mem_map _ hany] at hkv
        rcases List.mem_map.mp hkv with ⟨kv0, hkv0, heq⟩
        by_cases hk : kv0.1 = p.id
        · simp only [hk, if_true] at heq
          rw [← heq]
          exact ⟨rfl, rfl⟩
        · simp only [hk, if_false] at heq
          exact heq ▸ hm kv0 hkv0
      · simp only [Bool.not_eq_true] at hany
        have hk : p.id ∉ keys m := by
          intro hmem
          rcases List.mem_map.mp hmem with ⟨kv0, hkv0, hkk⟩
          have := List.any_eq_false.mp hany kv0 hkv0
          simp [hkk] at this
        rw [mapSet_of_not_mem _ hk] at hkv
        rcases List.mem_append.mp hkv with hmem | hmem
        · exact hm kv hmem
        · simp only [List.mem_singleton] at hmem
          rw [hmem]
          exact ⟨rfl, rfl⟩

/-- The spouse of every lookup member, characterized on the phase-1 map:
resolved exactly when the declared partner id is truthy and present. -/
theorem spouseOf_buildGraph (people : List Person) (k : String)
    (h : people.length ≠ 0) :
    spouseOf (buildGraph people).lookup k =
      (mapGet (insertPeople people) k).bind (fun e =>
        if truthy e.person.partnerId &&
            (mapGet (insertPeople people) e.person.partnerId).isSome then
          some e.person.partnerId
        else none) := by
  have hpv := pv_buildGraph people k h
  rw [mapGet_linkSpouses] at hpv
  unfold spouseOf
  cases hget : mapGet (insertPeople people) k with
  | none =>
      rw [hget] at hpv
      simp only [Option.map_none'] at hpv
      cases hget2 : mapGet (buildGraph people).lookup k with
      | none => rfl
      | some e => rw [hget2] at hpv; simp at hpv
  | some e =>
      rw [hget] at hpv
      cases hget2 : mapGet (buildGraph people).lookup k with
      | none => rw [hget2] at hpv; simp at hpv
      | some e2 =>
          rw [hget2] at hpv
          simp only [Option.map_some', Option.some.injEq] at hpv
          have hsp : e2.spouse = (linkFn (insertPeople people) e).spouse := by
            have := congrArg Prod.snd hpv
            simpa using this
          simp only [Option.some_bind]
          rw [hsp]
          have hfresh := (insertPeople_fresh people _ (mem_of_mapGet hget)).2
          unfold linkFn
          split
          · rfl
          · simpa using hfresh

/-- The partnerId of every lookup member matches the phase-1 map. -/
theorem partnerOf_buildGraph (people : List Person) (k : String)
    (h : people.length ≠ 0) :
    partnerOf (buildGraph people).lookup k =
      (mapGet (insertPeople people) k).map (fun e => e.person.partnerId) := by
  have hpv := pv_buildGraph people k h
  rw [mapGet_linkSpouses] at hpv
  unfold partnerOf
  cases hget : mapGet (insertPeople people) k with
  | none =>
      rw [hget] at hpv
      simp only [Option.map_none'] at hpv
      cases hget2 : mapGet (buildGraph people).lookup k with
      | none => rfl
      | some e => rw [hget2] at hpv; simp at hpv
  | some e =>
      rw [hget] at hpv
      cases hget2 : mapGet (buildGraph people).lookup k with
      | none => rw [hget2] at hpv; simp at hpv
      | some e2 =>
          rw [hget2] at hpv
          simp only [Option.map_some', Option.some.injEq] at hpv
          have hp : e2.person = (linkFn (insertPeople people) e).person := by
            have := congrArg Prod.fst hpv
            simpa using this
          simp only [Option.map_some']
          rw [hp]
          unfold linkFn
          split <;> rfl

/-! ### Merge sort: permutation and ordering -/

theorem jsMergeF_perm (le : String → String → Bool) :
    ∀ (fuel : Nat) (xs ys : List String), (jsMergeF le fuel xs ys).Perm (xs ++ ys) := by
  intro fuel
  induction fuel with
  | zero => intro xs ys; exact List.Perm.refl _
  | succ fuel ih =>
      intro xs ys
      cases xs with
      | nil => simp [jsMergeF]
      | cons x xs =>
          cases ys with
          | nil => simp [jsMergeF]
          | cons y ys =>
              simp only [jsMergeF]
              by_cases hle : le x y = true
              · simp only [hle, if_true]
                exact List.Perm.cons x (ih xs (y :: ys))
              · simp only [hle, Bool.false_eq_true, if_false]
                exact List.Perm.trans (List.Perm.cons y (ih (x :: xs) ys))
                  (List.perm_middle).symm

theorem jsMerge_perm (le : String → String → Bool) (xs ys : List String) :
    (jsMerge le xs ys).Perm (xs ++ ys) :=
  jsMergeF_perm le _ xs ys

theorem jsMergeSortF_perm (le : String → String → Bool) :
    ∀ (fuel : Nat) (l : List String), (jsMergeSortF le fuel l).Perm l := by
  intro fuel
  induction fuel with
  | zero => intro l; exact List.Perm.refl _
  | succ fuel ih =>
      intro l
      simp only [jsMergeSortF]
      by_cases hl : l.length ≤ 1
      · simp only [hl, if_true]
        exact List.Perm.refl _
      · simp only [hl, if_false]
        apply List.Perm.trans (jsMerge_perm le _ _)
        have hperm : (jsMergeSortF le fuel (l.take (l.length / 2)) ++
            jsMergeSortF le fuel (l.drop (l.length / 2))).Perm
              (l.take (l.length / 2) ++ l.drop (l.length / 2)) :=
          List.Perm.append (ih _) (ih _)
        rw [List.take_append_drop] at hperm
        exact hperm

theorem jsSort_perm (cmp : String → String → Int) (l : List String) :
    (jsSort cmp l).Perm l :=
  jsMergeSortF_perm _ l.length l

/-- The merge keeps a pairwise relation, provided the relation absorbs the
comparison verdicts in the four local ways the merge uses them. -/
theorem jsMergeF_pairwise (le : String → String → Bool) (P : String → String → Prop)
    (hLeft : ∀ a b, le a b = true → P a b)
    (hRight : ∀ a b, le a b = false → P b a)
    (hTransL : ∀ a b c, le a b = true → P b c → P a c)
    (hTransR : ∀ a b c, le a b = false → P a c → P b c) :
    ∀ (fuel : Nat) (xs ys : List String), xs.length + ys.length ≤ fuel →
      xs.Pairwise P → ys.Pairwise P → (jsMergeF le fuel xs ys).Pairwise P := by
  intro fuel
  induction fuel with
  | zero =>
      intro xs ys hlen hxs hys
      have hx : xs = [] := List.length_eq_zero.mp (by omega)
      have hy : ys = [] := List.length_eq_zero.mp (by omega)
      subst hx; subst hy
      simp [jsMergeF]
  | succ fuel ih =>
      intro xs ys hlen hxs hys
      cases xs with
      | nil => simpa [jsMergeF] using hys
      | cons x xs =>
          cases ys with
          | nil => simpa [jsMergeF] using hxs
          | cons y ys =>
              simp only [jsMergeF]
              rcases List.pairwise_cons.mp hxs with ⟨hxall, hxs2⟩
              rcases List.pairwise_cons.mp hys with ⟨hyall, hys2⟩
              simp only [List.length_cons] at hlen
              by_cases hle : le x y = true
              · simp only [hle, if_true]
                rw [List.pairwise_cons]
                constructor
                · intro z hz
                  have hz2 := (jsMergeF_perm le fuel xs (y :: ys)).mem_iff.mp hz
                  rcases List.mem_append.mp hz2 with hz3 | hz3
                  · exact hxall z hz3
                  · rcases List.mem_cons.mp hz3 with rfl | hz4
                    · exact hLeft x z hle
                    · exact hTransL x y z hle (hyall z hz4)
                · exact ih xs (y :: ys) (by simp; omega) hxs2 hys
              · have hle2 : le x y = false := by simpa using hle
                simp only [hle2, Bool.false_eq_true, if_false]
                rw [List.pairwise_cons]
                constructor
                · intro z hz
                  have hz2 := (jsMergeF_perm le fuel (x :: xs) ys).mem_iff.mp hz
                  rcases List.mem_append.mp hz2 with hz3 | hz3
                  · rcases List.mem_cons.mp hz3 with rfl | hz4
                    · exact hRight z y hle2
                    · exact hTransR x y z hle2 (hxall z hz4)
                  · exact hyall z hz3
                · exact ih (x :: xs) ys (by simp; omega) hxs hys2

theorem jsMergeSortF_pairwise (le : String → String → Bool) (P : String → String → Prop)
    (hLeft : ∀ a b, le a b = true → P a b)
    (hRight : ∀ a b, le a b = false → P b a)
    (hTransL : ∀ a b c, le a b = true → P b c → P a c)
    (hTransR : ∀ a b c, le a b = false → P a c → P b c) :
    ∀ (fuel : Nat) (l : List String), l.length ≤ fuel →
      (jsMergeSortF le fuel l).Pairwise P := by
  intro fuel
  induction fuel with
  | zero =>
      intro l hlen
      have : l = [] := List.length_eq_zero.mp (by omega)
      subst this
      simp [jsMergeSortF]
  | succ fuel ih =>
      intro l hlen
      simp only [jsMergeSortF]
      by_cases hl : l.length ≤ 1
      · simp only [hl, if_true]
        cases l with
        | nil => simp
        | cons a rest =>
            cases rest with
            | nil => simp
            | cons b rest2 => simp at hl
      · simp only [hl, if_false]
        have h2 : 2 ≤ l.length := by omega
        have htake : (l.take (l.length / 2)).length = l.length / 2 := by
          rw [List.length_take]
          omega
        have hdrop : (l.drop (l.length / 2)).length = l.length - l.length / 2 := by
          rw [List.length_drop]
        have hA := ih (l.take (l.length / 2)) (by omega)
        have hB := ih (l.drop (l.length / 2)) (by omega)
        exact jsMergeF_pairwise le P hLeft hRight hTransL hTransR _ _ _ (le_refl _) hA hB

theorem jsSort_pairwise (cmp : String → String → Int) (P : String → String → Prop)
    (hLeft : ∀ a b, cmp a b ≤ 0 → P a b)
    (hRight : ∀ a b, ¬ cmp a b ≤ 0 → P b a)
    (hTransL : ∀ a b c, cmp a b ≤ 0 → P b c → P a c)
    (hTransR : ∀ a b c, ¬ cmp a b ≤ 0 → P a c → P b c)
    (l : List String) : (jsSort cmp l).Pairwise P := by
  apply jsMergeSortF_pairwise _ P ?hl ?hr ?htl ?htr l.length l (le_refl _)
  case hl => intro a b h; exact hLeft a b (by simpa using h)
  case hr => intro a b h; exact hRight a b (by simpa using h)
  case htl => intro a b c h hp; exact hTransL a b c (by simpa using h) hp
  case htr => intro a b c h hp; exact hTransR a b c (by simpa using h) hp

/-- The target child order: ascending birth dates, undated after everything;
`a` may precede `b` exactly when the comparator does not place `b` strictly
before `a`. -/
def childOrdered (bd : String → Option Nat) (a b : String) : Prop :=
  0 ≤ cmpBirth (bd b) (bd a)

theorem childOrdered_hLeft (bd : String → Option Nat) (a b : String)
    (h : cmpBirth (bd a) (bd b) ≤ 0) : childOrdered bd a b := by
  unfold childOrdered
  cases ha : bd a <;> cases hb : bd b <;>
    simp only [ha, hb, cmpBirth] at h ⊢ <;> omega

theorem childOrdered_hRight (bd : String → Option Nat) (a b : String)
    (h : ¬ cmpBirth (bd a) (bd b) ≤ 0) : childOrdered bd b a := by
  unfold childOrdered
  cases ha : bd a <;> cases hb : bd b <;>
    simp only [ha, hb, cmpBirth] at h ⊢ <;> omega

theorem childOrdered_hTransL (bd : String → Option Nat) (a b c : String)
    (h : cmpBirth (bd a) (bd b) ≤ 0) (hp : childOrdered bd b c) :
    childOrdered bd a c := by
  unfold childOrdered at hp ⊢
  cases ha : bd a <;> cases hb : bd b <;> cases hc : bd c <;>
    simp only [ha, hb, hc, cmpBirth] at h hp ⊢ <;> omega

theorem childOrdered_hTransR (bd : String → Option Nat) (a b c : String)
    (h : ¬ cmpBirth (bd a) (bd b) ≤ 0) (hp : childOrdered bd a c) :
    childOrdered bd b c := by
  unfold childOrdered at hp ⊢
  cases ha : bd a <;> cases hb : bd b <;> cases hc : bd c <;>
    simp only [ha, hb, hc, cmpBirth] at h hp ⊢ <;> omega

/-- The sorted children list of the source comparator is childOrdered. -/
theorem jsSort_childOrdered (bd : String → Option Nat) (l : List String) :
    (jsSort (fun a b => cmpBirth (bd a) (bd b)) l).Pairwise (childOrdered bd) :=
  jsSort_pairwise _ _ (childOrdered_hLeft bd) (childOrdered_hRight bd)
    (childOrdered_hTransL bd) (childOrdered_hTransR bd) l

/-! ### Children of the final lookup -/

theorem bdOf_sortChildren (m : PMap) (cid : String) :
    bdOf (sortChildren m) cid = bdOf m cid := by
  unfold bdOf
  rw [mapGet_sortChildren]
  cases mapGet m cid with
  | none => rfl
  | some e =>
      simp only [Option.map_some']
      unfold sortFn
      split <;> rfl

/-- The attachment-stage map of the pipeline. -/
def attachedMap (people : List Person) : PMap :=
  (attachChildren (linkSpouses (insertPeople people))).1

theorem childrenOf_linkSpouses (m : PMap) (k : String) :
    childrenOf (linkSpouses m) k = childrenOf m k := by
  unfold childrenOf
  rw [mapGet_linkSpouses]
  cases mapGet m k with
  | none => rfl
  | some e =>
      simp only [Option.map_some']
      unfold linkFn
      split <;> rfl

theorem childrenOf_insertPeople (people : List Person) (k : String) :
    childrenOf (insertPeople people) k = [] := by
  unfold childrenOf
  cases hget : mapGet (insertPeople people) k with
  | none => rfl
  | some e => exact (insertPeople_fresh people _ (mem_of_mapGet hget)).1

theorem childrenOf_attachedMap_nodup (people : List Person) (k : String) :
    (childrenOf (attachedMap people) k).Nodup := by
  unfold attachedMap
  rw [attachChildren_eq_foldl]
  apply foldl_attachStep_children_nodup
  intro k2
  rw [childrenOf_linkSpouses, childrenOf_insertPeople]
  exact List.nodup_nil

/-- The final children list of any member: the attachment-stage list, sorted
when longer than one element. -/
theorem childrenOf_buildGraph_eq (people : List Person) (k : String)
    (hne : people.length ≠ 0) :
    childrenOf (buildGraph people).lookup k =
      (if (childrenOf (attachedMap people) k).length > 1 then
        jsSort (fun a b =>
          cmpBirth (bdOf (attachedMap people) a) (bdOf (attachedMap people) b))
          (childrenOf (attachedMap people) k)
      else childrenOf (attachedMap people) k) := by
  have hlookup : (buildGraph people).lookup = sortChildren (attachedMap people) := by
    simp only [buildGraph, hne, if_false]
    rfl
  rw [hlookup]
  unfold childrenOf
  rw [mapGet_sortChildren]
  cases hget : mapGet (attachedMap people) k with
  | none => simp
  | some e =>
      simp only [Option.map_some']
      unfold sortFn
      split <;> simp_all

theorem childrenOf_buildGraph_perm (people : List Person) (k : String)
    (hne : people.length ≠ 0) :
    (childrenOf (buildGraph people).lookup k).Perm
      (childrenOf (attachedMap people) k) := by
  rw [childrenOf_buildGraph_eq people k hne]
  split
  · exact jsSort_perm _ _
  · exact List.Perm.refl _

theorem childrenOf_buildGraph_nodup (people : List Person) (k : String) :
    (childrenOf (buildGraph people).lookup k).Nodup := by
  by_cases hne : people.length = 0
  · have : people = [] := List.length_eq_zero.mp hne
    subst this
    simp [buildGraph, childrenOf, mapGet]
  · exact (childrenOf_buildGraph_perm people k hne).symm.nodup
      (childrenOf_attachedMap_nodup people k)

theorem bdOf_buildGraph (people : List Person) (cid : String)
    (hne : people.length ≠ 0) :
    bdOf (buildGraph people).lookup cid = bdOf (attachedMap people) cid := by
  simp only [buildGraph, hne, if_false]
  exact bdOf_sortChildren _ cid

theorem childrenOf_buildGraph_pairwise (people : List Person) (k : String) :
    (childrenOf (buildGraph people).lookup k).Pairwise
      (childOrdered (bdOf (buildGraph people).lookup)) := by
  by_cases hne : people.length = 0
  · have : people = [] := List.length_eq_zero.mp hne
    subst this
    simp [buildGraph, childrenOf, mapGet]
  · have hbd : childOrdered (bdOf (buildGraph people).lookup) =
        childOrdered (bdOf (attachedMap people)) := by
      funext a b
      unfold childOrdered
      rw [bdOf_buildGraph people a hne, bdOf_buildGraph people b hne]
    rw [hbd, childrenOf_buildGraph_eq people k hne]
    split
    · exact jsSort_childOrdered _ _
    · rename_i hlen
      simp only [gt_iff_lt, not_lt] at hlen
      cases hl : childrenOf (attachedMap people) k with
      | nil => simp
      | cons a rest =>
          cases rest with
          | nil => simp
          | cons b rest2 =>
              rw [hl] at hlen
              simp at hlen

/-! ### Attachment soundness and non-root characterization -/

theorem mem_attachPairs {m : PMap} {c k : String} (h : (c, k) ∈ attachPairs m) :
    ∃ kv ∈ m, kv.2.person.id = c ∧ k ∈ kv.2.person.parentsIds := by
  unfold attachPairs at h
  rcases List.mem_flatMap.mp h with ⟨kv, hkv, hpair⟩
  rcases List.mem_map.mp hpair with ⟨par, hpar, heq⟩
  refine ⟨kv, hkv, ?_, ?_⟩
  · exact (Prod.mk.injEq _ _ _ _).mp heq |>.1
  · have := (Prod.mk.injEq _ _ _ _).mp heq |>.2
    exact this ▸ hpar

theorem keysNodup_linkSpouses (m : PMap) (h : (keys m).Nodup) :
    (keys (linkSpouses m)).Nodup := by
  rw [keys_linkSpouses]
  exact h

/-- Every child edge of the final lookup is witnessed by a declared parent
reference of the child: `c ∈ children(k)` implies the lookup has `c` and the
parent ids of `c` contain `k`. -/
theorem children_sound (people : List Person) (k c : String)
    (hne : people.length ≠ 0)
    (hc : c ∈ childrenOf (buildGraph people).lookup k) :
    (mapGet (buildGraph people).lookup c).isSome = true ∧
      k ∈ parentsOf (buildGraph people).lookup c := by
  have hc2 : c ∈ childrenOf (attachedMap people) k :=
    (childrenOf_buildGraph_perm people k hne).mem_iff.mp hc
  have hbase : c ∈ childrenOf (linkSpouses (insertPeople people)) k ∨
      (c, k) ∈ attachPairs (linkSpouses (insertPeople people)) := by
    unfold attachedMap at hc2
    rw [attachChildren_eq_foldl] at hc2
    exact foldl_attachStep_children_sub hc2
  rcases hbase with hb | hb
  · rw [childrenOf_linkSpouses, childrenOf_insertPeople] at hb
    simp at hb
  · rcases mem_attachPairs hb with ⟨kv, hkv, hid, hpar⟩
    have hkeyed : keyed (linkSpouses (insertPeople people)) :=
      keyed_linkSpouses (keyed_insertPeople people)
    have hnd : (keys (linkSpouses (insertPeople people))).Nodup :=
      keysNodup_linkSpouses _ (keysNodup_insertPeople people)
    have hkey : kv.1 = c := (hkeyed kv hkv).trans hid
    have hget1 : mapGet (linkSpouses (insertPeople people)) c = some kv.2 := by
      rw [← hkey]
      exact mapGet_of_mem_nodup hnd (by simpa using hkv)
    have hpv := pv_buildGraph people c hne
    rw [mapGet_linkSpouses] at hpv hget1
    cases hget0 : mapGet (insertPeople people) c with
    | none => rw [hget0] at hget1; simp at hget1
    | some e0 =>
        rw [hget0] at hpv hget1
        simp only [Option.map_some', Option.some.injEq] at hget1
        cases hgetL : mapGet (buildGraph people).lookup c with
        | none => rw [hgetL] at hpv; simp at hpv
        | some eL =>
            rw [hgetL] at hpv
            simp only [Option.map_some', Option.some.injEq] at hpv
            constructor
            · simp
            · have hperson : eL.person = (linkFn (insertPeople people) e0).person := by
                have := congrArg Prod.fst hpv
                simpa using this
              have hperson2 : kv.2.person = (linkFn (insertPeople people) e0).person := by
                rw [← hget1]
              unfold parentsOf
              rw [hgetL]
              simp only
              rw [hperson, ← hperson2]
              exact hpar

/-- Every non-root mark is witnessed by a lookup member with a resolvable
parent reference. -/
theorem nonRoots_sound (people : List Person) (x : String)
    (hne : people.length ≠ 0)
    (hx : x ∈ (buildGraph people).nonRoots) :
    (mapGet (buildGraph people).lookup x).isSome = true ∧
      ∃ par ∈ parentsOf (buildGraph people).lookup x,
        par ∈ keys (buildGraph people).lookup := by
  have hnr : (buildGraph people).nonRoots =
      (attachChildren (linkSpouses (insertPeople people))).2 := by
    simp only [buildGraph, hne, if_false]
  rw [hnr] at hx
  rw [attachChildren_eq_foldl] at hx
  rcases foldl_attachStep_nonRoots_sub hx with hh | hh
  · simp at hh
  · rcases hh with ⟨par, hpair, hkeys⟩
    rcases mem_attachPairs hpair with ⟨kv, hkv, hid, hpar⟩
    have hkeyed : keyed (linkSpouses (insertPeople people)) :=
      keyed_linkSpouses (keyed_insertPeople people)
    have hnd : (keys (linkSpouses (insertPeople people))).Nodup :=
      keysNodup_linkSpouses _ (keysNodup_insertPeople people)
    have hkey : kv.1 = x := (hkeyed kv hkv).trans hid
    have hget1 : mapGet (linkSpouses (insertPeople people)) x = some kv.2 := by
      rw [← hkey]
      exact mapGet_of_mem_nodup hnd (by simpa using hkv)
    have hpv := pv_buildGraph people x hne
    rw [mapGet_linkSpouses] at hpv hget1
    cases hget0 : mapGet (insertPeople people) x with
    | none => rw [hget0] at hget1; simp at hget1
    | some e0 =>
        rw [hget0] at hpv hget1
        simp only [Option.map_some', Option.some.injEq] at hget1
        cases hgetL : mapGet (buildGraph people).lookup x with
        | none => rw [hgetL] at hpv; simp at hpv
        | some eL =>
            rw [hgetL] at hpv
            simp only [Option.map_some', Option.some.injEq] at hpv
            refine ⟨by simp, par, ?_, ?_⟩
            · have hperson : eL.person = (linkFn (insertPeople people) e0).person := by
                have := congrArg Prod.fst hpv
                simpa using this
              have hperson2 : kv.2.person = (linkFn (insertPeople people) e0).person := by
                rw [← hget1]
              unfold parentsOf
              rw [hgetL]
              simp only
              rw [hperson, ← hperson2]
              exact hpar
            · rw [keys_buildGraph]
              rw [keys_linkSpouses] at hkeys
              exact hkeys

/-- A lookup member not marked non-root is a root candidate. -/
theorem mem_rootCandidates_of (people : List Person) (k : String)
    (hne : people.length ≠ 0)
    (hk : (mapGet (buildGraph people).lookup k).isSome = true)
    (hnr : k ∉ (buildGraph people).nonRoots) :
    k ∈ rootCandidates (buildGraph people).lookup (buildGraph people).nonRoots := by
  cases hget : mapGet (buildGraph people).lookup k with
  | none => rw [hget] at hk; simp at hk
  | some e =>
      have hmem : (k, e) ∈ (buildGraph people).lookup := mem_of_mapGet hget
      have hkeyed := keyed_buildGraph people (k, e) hmem
      simp only at hkeyed
      unfold rootCandidates
      apply List.mem_map.mpr
      refine ⟨(k, e), ?_, by simp [← hkeyed]⟩
      apply List.mem_filter.mpr
      refine ⟨hmem, ?_⟩
      simp only [Bool.not_eq_true']
      rw [← hkeyed]
      simpa using hnr

/-! ### Root deduplication invariants -/

/-- The fold state invariant of `finalRoots`: kept roots are processed,
their spouses are processed, and no two kept roots are mutual spouses. -/
def RootsInv (m : PMap) (acc : List String × List String) : Prop :=
  (∀ x ∈ acc.1, x ∈ acc.2) ∧
  (∀ x ∈ acc.1, ∀ sid, spouseOf m x = some sid → sid ∈ acc.2) ∧
  (∀ a ∈ acc.1, ∀ b ∈ acc.1, a ≠ b →
    ¬(spouseOf m a = some b ∧ spouseOf m b = some a))

theorem finalRoots_fold_inv (m : PMap) :
    ∀ (l : List String) (acc : List String × List String), RootsInv m acc →
      RootsInv m (l.foldl
        (fun acc rid =>
          if acc.2.contains rid then acc
          else
            (acc.1 ++ [rid],
             match (mapGet m rid).bind (fun e => e.spouse) with
             | some sid => setAdd (setAdd acc.2 rid) sid
             | none => setAdd acc.2 rid))
        acc) ∧
      (∀ x ∈ (l.foldl
        (fun acc rid =>
          if acc.2.contains rid then acc
          else
            (acc.1 ++ [rid],
             match (mapGet m rid).bind (fun e => e.spouse) with
             | some sid => setAdd (setAdd acc.2 rid) sid
             | none => setAdd acc.2 rid))
        acc).1, x ∈ acc.1 ∨ x ∈ l) := by
  intro l
  induction l with
  | nil => exact fun acc h => ⟨h, fun x hx => Or.inl hx⟩
  | cons rid rest ih =>
      intro acc hinv
      simp only [List.foldl_cons]
      by_cases hproc : acc.2.contains rid = true
      · simp only [hproc, if_true]
        rcases ih acc hinv with ⟨h1, h2⟩
        refine ⟨h1, fun x hx => ?_⟩
        rcases h2 x hx with hh | hh
        · exact Or.inl hh
        · exact Or.inr (List.mem_cons_of_mem _ hh)
      · simp only [hproc, Bool.false_eq_true, if_false]
        set s2 := (match (mapGet m rid).bind (fun e => e.spouse) with
          | some sid => setAdd (setAdd acc.2 rid) sid
          | none => setAdd acc.2 rid) with hs2
        have hmono : ∀ y ∈ acc.2, y ∈ s2 := by
          intro y hy
          rw [hs2]
          cases (mapGet m rid).bind (fun e => e.spouse) with
          | none => exact setAdd_subset hy
          | some sid => exact setAdd_subset (setAdd_subset hy)
        have hrid : rid ∈ s2 := by
          rw [hs2]
          cases (mapGet m rid).bind (fun e => e.spouse) with
          | none => exact mem_setAdd.mpr (Or.inr rfl)
          | some sid => exact setAdd_subset (mem_setAdd.mpr (Or.inr rfl))
        have hsp : ∀ sid, spouseOf m rid = some sid → sid ∈ s2 := by
          intro sid hsid
          rw [hs2]
          unfold spouseOf at hsid
          rw [hsid]
          exact mem_setAdd.mpr (Or.inr rfl)
        have hnew : RootsInv m (acc.1 ++ [rid], s2) := by
          rcases hinv with ⟨i1, i2, i3⟩
          refine ⟨?_, ?_, ?_⟩
          · intro x hx
            rcases List.mem_append.mp hx with hh | hh
            · exact hmono x (i1 x hh)
            · simp only [List.mem_singleton] at hh
              exact hh ▸ hrid
          · intro x hx sid hsid
            rcases List.mem_append.mp hx with hh | hh
            · exact hmono sid (i2 x hh sid hsid)
            · simp only [List.mem_singleton] at hh
              exact hsp sid (hh ▸ hsid)
          · intro a ha b hb hab hcontra
            rcases List.mem_append.mp ha with ha2 | ha2 <;>
              rcases List.mem_append.mp hb with hb2 | hb2
            · exact i3 a ha2 b hb2 hab hcontra
            · simp only [List.mem_singleton] at hb2
              subst hb2
              have := i2 a ha2 b hcontra.1
              exact hproc (by simpa using this)
            · simp only [List.mem_singleton] at ha2
              subst ha2
              have := i2 b hb2 a hcontra.2
              exact hproc (by simpa using this)
            · simp only [List.mem_singleton] at ha2 hb2
              exact hab (ha2.trans hb2.symm)
        rcases ih _ hnew with ⟨h1, h2⟩
        refine ⟨h1, fun x hx => ?_⟩
        rcases h2 x hx with hh | hh
        · rcases List.mem_append.mp hh with h3 | h3
          · exact Or.inl h3
          · simp only [List.mem_singleton] at h3
            exact Or.inr (h3 ▸ List.mem_cons_self rid rest)
        · exact Or.inr (List.mem_cons_of_mem _ hh)

theorem finalRoots_no_mutual (m : PMap) (trl : List String) :
    ∀ a ∈ finalRoots m trl, ∀ b ∈ finalRoots m trl, a ≠ b →
      ¬(spouseOf m a = some b ∧ spouseOf m b = some a) := by
  have h := finalRoots_fold_inv m trl ([], [])
    ⟨by simp, by simp, by simp⟩
  exact h.1.2.2

theorem finalRoots_sub (m : PMap) (trl : List String) :
    ∀ x ∈ finalRoots m trl, x ∈ trl := by
  have h := finalRoots_fold_inv m trl ([], [])
    ⟨by simp, by simp, by simp⟩
  intro x hx
  rcases h.2 x hx with hh | hh
  · simp at hh
  · exact hh

theorem mem_trueRootList_spouse (m : PMap) (nr roots : List String) (x : String)
    (h : x ∈ trueRootList m nr roots) :
    ∀ sid, spouseOf m x = some sid → ¬ sid ∈ nr := by
  intro sid hsid
  unfold trueRootList at h
  have hpred := (List.mem_filter.mp h).2
  unfold spouseOf at hsid
  cases hget : mapGet m x with
  | none => rw [hget] at hsid; simp at hsid
  | some e =>
      rw [hget] at hsid
      simp only [Option.some_bind] at hsid
      rw [hget] at hpred
      simp [hsid] at hpred
      simpa using hpred

/-- The roots of the built graph are drawn from the deduplicated true root
list. -/
theorem buildGraph_roots_eq (people : List Person) (hne : people.length ≠ 0) :
    (buildGraph people).roots =
      finalRoots (buildGraph people).lookup
        (trueRootList (buildGraph people).lookup (buildGraph people).nonRoots
          (rootCandidates (buildGraph people).lookup (buildGraph people).nonRoots)) := by
  simp only [buildGraph, hne, if_false]

/-! ### Reveal sequencer: shape of the action list -/

/-- The action block one unvisited person contributes: its reveal, then the
spouse-slot reveal when a spouse is resolved. -/
def blockOf (m : PMap) (p : String) : List RAction :=
  RAction.revealPeople p ::
    (match spouseOf m p with
     | some _ => [RAction.revealSpouses p]
     | none => [])

/-- The persons a flat visit list emits, skipping already visited ones, in
emission order. -/
def emitsFrom (vis : List String) : List String → List String
  | [] => []
  | p :: rest =>
      if vis.contains p then emitsFrom vis rest
      else p :: emitsFrom (setAdd vis p) rest

theorem foldl_revealStep_shape (m : PMap) :
    ∀ (l : List String) (acc : List RAction × List String),
      l.foldl (revealStep m) acc =
        (acc.1 ++ (emitsFrom acc.2 l).flatMap (blockOf m), l.foldl setAdd acc.2) := by
  intro l
  induction l with
  | nil => intro acc; simp [emitsFrom]
  | cons p rest ih =>
      intro acc
      simp only [List.foldl_cons, emitsFrom]
      by_cases hvis : acc.2.contains p = true
      · have hv2 : p ∈ acc.2 := by simpa using hvis
        have hstep : revealStep m acc p = acc := by
          unfold revealStep
          simp [hv2]
        have hadd : setAdd acc.2 p = acc.2 := by
          unfold setAdd
          simp [hv2]
        rw [hstep, ih acc, hvis]
        simp [hadd]
      · have hstep : revealStep m acc p =
            (acc.1 ++ blockOf m p, setAdd acc.2 p) := by
          unfold revealStep blockOf
          simp only [hvis, Bool.false_eq_true, if_false]
          cases spouseOf m p <;> simp
        rw [hstep, ih _]
        simp only [hvis, Bool.false_eq_true, if_false]
        simp [List.append_assoc]

theorem actionsOfGenerations_shape (m : PMap) (gens : List (List String)) :
    actionsOfGenerations m gens =
      (emitsFrom [] gens.flatten).flatMap (blockOf m) := by
  unfold actionsOfGenerations
  rw [← List.foldl_flatten]
  rw [foldl_revealStep_shape m gens.flatten ([], [])]
  simp

theorem mem_emitsFrom {l : List String} :
    ∀ {vis x}, x ∈ emitsFrom vis l ↔ x ∈ l ∧ x ∉ vis := by
  induction l with
  | nil => simp [emitsFrom]
  | cons p rest ih =>
      intro vis x
      simp only [emitsFrom]
      by_cases hvis : vis.contains p = true
      · simp only [hvis, if_true]
        rw [ih]
        simp only [List.mem_cons]
        constructor
        · rintro ⟨hx, hnv⟩
          exact ⟨Or.inr hx, hnv⟩
        · rintro ⟨hx | hx, hnv⟩
          · subst hx
            exact absurd (by simpa using hvis) hnv
          · exact ⟨hx, hnv⟩
      · simp only [hvis, Bool.false_eq_true, if_false, List.mem_cons]
        constructor
        · rintro (rfl | hx)
          · exact ⟨Or.inl rfl, by simpa using hvis⟩
          · rcases ih.mp hx with ⟨h1, h2⟩
            refine ⟨Or.inr h1, ?_⟩
            intro hm
            exact h2 (setAdd_subset hm)
        · rintro ⟨hx | hx, hnv⟩
          · exact Or.inl hx
          · by_cases hxp : x = p
            · exact Or.inl hxp
            · right
              rw [ih]
              refine ⟨hx, ?_⟩
              intro hm
              rcases mem_setAdd.mp hm with hh | hh
              · exact hnv hh
              · exact hxp hh

theorem nodup_emitsFrom {l : List String} :
    ∀ {vis}, (emitsFrom vis l).Nodup := by
  induction l with
  | nil => simp [emitsFrom]
  | cons p rest ih =>
      intro vis
      simp only [emitsFrom]
      by_cases hvis : vis.contains p = true
      · simp only [hvis, if_true]
        exact ih
      · simp only [hvis, Bool.false_eq_true, if_false, List.nodup_cons]
        refine ⟨?_, ih⟩
        intro hmem
        have := (mem_emitsFrom.mp hmem).2
        exact this (mem_setAdd.mpr (Or.inr rfl))

theorem revealedIds_flatMap_blockOf (m : PMap) (l : List String) :
    revealedIds (l.flatMap (blockOf m)) = l := by
  induction l with
  | nil => rfl
  | cons p rest ih =>
      simp only [List.flatMap_cons]
      unfold revealedIds at ih ⊢
      rw [List.filterMap_append]
      rw [ih]
      congr 1
      unfold blockOf
      cases spouseOf m p <;> simp

theorem mem_revealedIds {acts : List RAction} {p : String} :
    p ∈ revealedIds acts ↔ RAction.revealPeople p ∈ acts := by
  unfold revealedIds
  rw [List.mem_filterMap]
  constructor
  · rintro ⟨a, ha, hfa⟩
    cases a with
    | revealPeople q =>
        simp only [Option.some.injEq] at hfa
        exact hfa ▸ ha
    | revealSpouses q => simp at hfa
  · intro h
    exact ⟨RAction.revealPeople p, h, rfl⟩

theorem flatMap_blockOf_head (m : PMap) (l : List String) :
    l.flatMap (blockOf m) = [] ∨
      ∃ q rest, l.flatMap (blockOf m) = RAction.revealPeople q :: rest := by
  cases l with
  | nil => exact Or.inl rfl
  | cons p rest =>
      right
      simp only [List.flatMap_cons]
      unfold blockOf
      exact ⟨p, _, rfl⟩

theorem spouseAdjacent_flatMap_blockOf (m : PMap) :
    ∀ (l : List String), spouseAdjacent m (l.flatMap (blockOf m)) := by
  intro l
  induction l with
  | nil => simp [spouseAdjacent]
  | cons p rest ih =>
      simp only [List.flatMap_cons]
      cases hsp : spouseOf m p with
      | none =>
          have hblock : blockOf m p = [RAction.revealPeople p] := by
            unfold blockOf
            rw [hsp]
          rw [hblock]
          rcases flatMap_blockOf_head m rest with hnil | ⟨q, tail, heq⟩
          · rw [hnil]
            simp [spouseAdjacent]
          · rw [heq]
            rw [heq] at ih
            show spouseAdjacent m
              (RAction.revealPeople p :: RAction.revealPeople q :: tail)
            unfold spouseAdjacent
            exact ih
      | some s =>
          have hblock : blockOf m p =
              [RAction.revealPeople p, RAction.revealSpouses p] := by
            unfold blockOf
            rw [hsp]
          rw [hblock]
          show spouseAdjacent m
            (RAction.revealPeople p :: RAction.revealSpouses p :: rest.flatMap (blockOf m))
          unfold spouseAdjacent
          exact ⟨rfl, by simp [hsp], ih⟩

/-! ### Heap lemmas for the focus subtree resolver -/

theorem hGet_alloc_lt {h : Heap} {p : HPerson} {r : Nat} (hr : r < h.next) :
    hGet (hAlloc h p).2 r = hGet h r := by
  unfold hAlloc hGet
  simp only
  rw [List.find?_append]
  cases hfind : h.mem.find? (fun kv => kv.1 = r) with
  | some kv => simp
  | none =>
      simp only [Option.none_or]
      rw [List.find?_cons_of_neg _ (by simp; omega)]
      simp [hfind]

theorem hGet_alloc_self {h : Heap} {p : HPerson} (hwf : hWF h) :
    hGet (hAlloc h p).2 (hAlloc h p).1 = some p := by
  unfold hAlloc hGet
  simp only
  rw [List.find?_append]
  have hnone : h.mem.find? (fun kv => kv.1 = h.next) = none := by
    rw [List.find?_eq_none]
    intro kv hkv
    have := hwf kv hkv
    simp
    omega
  rw [hnone]
  simp [List.find?_cons_of_pos]

theorem hWF_alloc {h : Heap} {p : HPerson} (hwf : hWF h) : hWF (hAlloc h p).2 := by
  unfold hAlloc hWF
  intro kv hkv
  simp only at hkv
  rcases List.mem_append.mp hkv with hh | hh
  · have := hwf kv hh
    simp only
    omega
  · simp only [List.mem_singleton] at hh
    subst hh
    simp

theorem hGet_alloc_cases {h : Heap} {p : HPerson} {r : Nat} {e : HPerson}
    (hwf : hWF h) (hget : hGet (hAlloc h p).2 r = some e) :
    hGet h r = some e ∨ (r = h.next ∧ e = p) := by
  by_cases hr : r < h.next
  · exact Or.inl (by rw [← hGet_alloc_lt hr]; exact hget)
  · right
    unfold hAlloc hGet at hget
    simp only at hget
    rw [List.find?_append] at hget
    have hnone : h.mem.find? (fun kv => kv.1 = r) = none := by
      rw [List.find?_eq_none]
      intro kv hkv
      have := hwf kv hkv
      simp
      omega
    rw [hnone] at hget
    simp only [Option.none_or] at hget
    by_cases hr2 : h.next = r
    · rw [List.find?_cons_of_pos _ (by simp [hr2])] at hget
      simp only [Option.map_some', Option.some.injEq] at hget
      exact ⟨hr2.symm, hget.symm⟩
    · rw [List.find?_cons_of_neg _ (by simp [hr2])] at hget
      simp at hget

theorem hSetSpouse_next (h : Heap) (r : Nat) (s : Option Nat) :
    (hSetSpouse h r s).next = h.next := rfl

theorem hGet_setSpouse (h : Heap) (r : Nat) (s : Option Nat) (r2 : Nat) :
    hGet (hSetSpouse h r s) r2 =
      (hGet h r2).map (fun e => if r2 = r then { e with spouse := s } else e) := by
  unfold hSetSpouse hGet
  simp only
  induction h.mem with
  | nil => rfl
  | cons kv rest ih =>
      by_cases hk2 : kv.1 = r2
      · by_cases hk : kv.1 = r
        · simp only [List.map_cons, hk, if_true]
          rw [List.find?_cons_of_pos _ (by simp [← hk, hk2]),
            List.find?_cons_of_pos _ (by simp [hk2])]
          simp only [Option.map_some']
          rw [if_pos (hk2 ▸ hk ▸ rfl)]
        · simp only [List.map_cons, hk, if_false]
          rw [List.find?_cons_of_pos _ (by simp [hk2]),
            List.find?_cons_of_pos _ (by simp [hk2])]
          simp only [Option.map_some']
          rw [if_neg (fun hh => hk (hk2.trans hh))]
      · by_cases hk : kv.1 = r
        · simp only [List.map_cons, hk, if_true]
          rw [List.find?_cons_of_neg _ (by simp; exact fun hh => hk2 (hk.trans hh)),
            List.find?_cons_of_neg _ (by simp [hk2])]
          exact ih
        · simp only [List.map_cons, hk, if_false]
          rw [List.find?_cons_of_neg _ (by simp [hk2]),
            List.find?_cons_of_neg _ (by simp [hk2])]
          exact ih

theorem hGet_setSpouse_ne {h : Heap} {r r2 : Nat} {s : Option Nat}
    (hne : r2 ≠ r) : hGet (hSetSpouse h r s) r2 = hGet h r2 := by
  rw [hGet_setSpouse]
  cases hGet h r2 with
  | none => rfl
  | some e => simp [hne]

theorem hGet_setSpouse_cases {h : Heap} {r r2 : Nat} {s : Option Nat} {e : HPerson}
    (hget : hGet (hSetSpouse h r s) r2 = some e) :
    ∃ e0, hGet h r2 = some e0 ∧ e.children = e0.children ∧ e.pid = e0.pid := by
  rw [hGet_setSpouse] at hget
  cases hget0 : hGet h r2 with
  | none => rw [hget0] at hget; simp at hget
  | some e0 =>
      rw [hget0] at hget
      simp only [Option.map_some', Option.some.injEq] at hget
      refine ⟨e0, rfl, ?_, ?_⟩ <;> rw [← hget] <;> split <;> rfl

theorem hWF_setSpouse {h : Heap} {r : Nat} {s : Option Nat} (hwf : hWF h) :
    hWF (hSetSpouse h r s) := by
  unfold hSetSpouse hWF
  intro kv hkv
  simp only at hkv
  rcases List.mem_map.mp hkv with ⟨kv0, hkv0, heq⟩
  have := hwf kv0 hkv0
  by_cases hk : kv0.1 = r
  · simp only [hk, if_true] at heq
    rw [← heq]
    simp only
    omega
  · simp only [hk, if_false] at heq
    rw [← heq]
    exact this

theorem hGet_some_key_lt {h : Heap} {r : Nat} {e : HPerson} (hwf : hWF h)
    (hget : hGet h r = some e) : r < h.next := by
  unfold hGet at hget
  cases hfind : h.mem.find? (fun kv => kv.1 = r) with
  | none => rw [hfind] at hget; simp at hget
  | some kv =>
      have hmem := List.mem_of_find?_eq_some hfind
      have hkey := List.find?_some hfind
      simp only [decide_eq_true_eq] at hkey
      have := hwf kv hmem
      omega

/-- In a well-formed heap nothing lives at or above `next`, so the
children-closure property at level `next` holds vacuously. -/
theorem hWF_closed_init {h : Heap} (hwf : hWF h) :
    ∀ r e, h.next ≤ r → hGet h r = some e → ∀ c ∈ e.children, h.next ≤ c := by
  intro r e hr hget c hc
  have := hGet_some_key_lt hwf hget
  omega

/-- The inductive specification of `buildForest`: the heap only grows by
fresh allocations, well-formedness is kept, the returned references are
fresh, and at any level `lo` at or below the incoming `next`, the property
that every reference at or above `lo` has children at or above `lo` is
preserved. -/
theorem buildForest_spec (pm : RMap) :
    ∀ (fuel : Nat) (ps : List HPerson) (h : Heap) (out : List Nat) (h2 : Heap),
      buildForest pm fuel ps h = (out, h2) →
      h.next ≤ h2.next ∧
      (∀ r, r < h.next → hGet h2 r = hGet h r) ∧
      (hWF h → hWF h2) ∧
      (∀ r ∈ out, h.next ≤ r ∧ r < h2.next) ∧
      (hWF h → ∀ lo, lo ≤ h.next →
        (∀ r e, lo ≤ r → hGet h r = some e → ∀ c ∈ e.children, lo ≤ c) →
        (∀ r e, lo ≤ r → hGet h2 r = some e → ∀ c ∈ e.children, lo ≤ c)) := by
  intro fuel
  induction fuel with
  | zero =>
      intro ps h out h2 heq
      simp only [buildForest] at heq
      injection heq with heq1 heq2
      subst heq1
      subst heq2
      exact ⟨le_refl _, fun r _ => rfl, fun hwf => hwf, by simp,
        fun _ _ _ hcl => hcl⟩
  | succ fuel ih =>
      intro ps h out h2 heq
      cases ps with
      | nil =>
          simp only [buildForest] at heq
          injection heq with heq1 heq2
          subst heq1
          subst heq2
          exact ⟨le_refl _, fun r _ => rfl, fun hwf => hwf, by simp,
            fun _ _ _ hcl => hcl⟩
      | cons p rest =>
          simp only [buildForest] at heq
          rcases hcs : buildForest pm fuel (resolveChildren pm h p.children) h with
            ⟨crs, hc⟩
          rcases ih (resolveChildren pm h p.children) h crs hc hcs with
            ⟨c1, c2, c3, c4, c5⟩
          rw [hcs] at heq
          rcases hrs : buildForest pm fuel rest (hAlloc hc { p with children := crs }).2
            with ⟨rrs, hr⟩
          rcases ih rest _ rrs hr hrs with ⟨r1, r2, r3, r4, r5⟩
          rw [hrs] at heq
          simp only at heq
          injection heq with heq1 heq2
          subst heq1
          subst heq2
          have hnodenext : (hAlloc hc { p with children := crs }).2.next = hc.next + 1 := rfl
          have hnoderef : (hAlloc hc { p with children := crs }).1 = hc.next := rfl
          rw [hnodenext] at r1 r2 r4
          refine ⟨by omega, ?_, ?_, ?_, ?_⟩
          · intro r hrlt
            rw [r2 r (by omega), hGet_alloc_lt (by omega)]
            exact c2 r hrlt
          · intro hwf
            exact r3 (hWF_alloc (c3 hwf))
          · intro r hrmem
            rcases List.mem_cons.mp hrmem with rfl | hmem
            · rw [hnoderef]
              omega
            · rcases r4 r hmem with ⟨h1, h2⟩
              omega
          · intro hwf lo hlo hcl
            have hcl1 := c5 hwf lo hlo hcl
            have hwf1 : hWF hc := c3 hwf
            have hcl2 : ∀ r e, lo ≤ r →
                hGet (hAlloc hc { p with children := crs }).2 r = some e →
                ∀ c ∈ e.children, lo ≤ c := by
              intro r e hrle hget c hcmem
              rcases hGet_alloc_cases hwf1 hget with hh | ⟨hh1, hh2⟩
              · exact hcl1 r e hrle hh c hcmem
              · subst hh2
                simp only at hcmem
                rcases c4 c hcmem with ⟨hc1, _⟩
                omega
            exact r5 (hWF_alloc hwf1) lo (by omega) hcl2

/-- The frame-and-freshness contract of the focused display computation:
with a focused id, no pre-existing reference is ever written, every returned
root reference is fresh, and every fresh node reachable through children
links stays within the fresh region. -/
theorem displayedRoots_spec (pm : RMap) (fuel : Nat) (h : Heap)
    (fid : String) (out : List Nat) (h2 : Heap)
    (hwf : hWF h)
    (heq : displayedRootsFocused pm fuel h fid = (out, h2)) :
    (∀ r, r < h.next → hGet h2 r = hGet h r) ∧
    (∀ r ∈ out, h.next ≤ r) ∧
    (∀ r e, h.next ≤ r → hGet h2 r = some e → ∀ c ∈ e.children, h.next ≤ c) := by
  unfold displayedRootsFocused at heq
  cases hlk : lookupPerson pm h fid with
  | none =>
      rw [hlk] at heq
      simp only at heq
      injection heq with heq1 heq2
      subst heq1
      subst heq2
      exact ⟨fun r _ => rfl, by simp, hWF_closed_init hwf⟩
  | some fp =>
      rw [hlk] at heq
      simp only at heq
      rcases hsub : buildForest pm fuel [fp] h with ⟨subs, hs⟩
      rcases buildForest_spec pm fuel [fp] h subs hs hsub with ⟨b1, b2, b3, b4, b5⟩
      rw [hsub] at heq
      have hwf1 : hWF hs := b3 hwf
      have hclosed1 : ∀ r e, h.next ≤ r → hGet hs r = some e →
          ∀ c ∈ e.children, h.next ≤ c :=
        b5 hwf h.next (le_refl _) (hWF_closed_init hwf)
      cases hsubs : subs with
      | nil =>
          rw [hsubs] at heq
          simp only at heq
          injection heq with heq1 heq2
          subst heq1
          subst heq2
          exact ⟨fun r hr => b2 r hr, by simp, hclosed1⟩
      | cons subRef tail =>
          rw [hsubs] at heq
          simp only at heq
          have hsubRef : h.next ≤ subRef ∧ subRef < hs.next := by
            apply b4
            rw [hsubs]
            simp
          cases hf : (if truthy fp.fatherID = true then lookupPerson pm hs fp.fatherID
              else none) with
          | none =>
              rw [hf] at heq
              cases hm : (if truthy fp.motherID = true then lookupPerson pm hs fp.motherID
                  else none) with
              | none =>
                  rw [hm] at heq
                  simp only at heq
                  injection heq with heq1 heq2
                  subst heq1
                  subst heq2
                  refine ⟨fun r hr => b2 r hr, ?_, hclosed1⟩
                  intro r hrmem
                  simp only [List.mem_singleton] at hrmem
                  subst hrmem
                  exact hsubRef.1
              | some mo =>
                  rw [hm] at heq
                  simp only at heq
                  injection heq with heq1 heq2
                  subst heq1
                  subst heq2
                  refine ⟨?_, ?_, ?_⟩
                  · intro r hr
                    rw [hGet_alloc_lt (by omega)]
                    exact b2 r hr
                  · intro r hrmem
                    simp only [List.mem_singleton] at hrmem
                    subst hrmem
                    show h.next ≤ hs.next
                    omega
                  · intro r e hr hget c hcmem
                    rcases hGet_alloc_cases hwf1 hget with hh | ⟨hh1, hh2⟩
                    · exact hclosed1 r e hr hh c hcmem
                    · subst hh2
                      simp only [List.mem_singleton] at hcmem
                      subst hcmem
                      exact hsubRef.1
          | some f =>
              rw [hf] at heq
              cases hm : (if truthy fp.motherID = true then lookupPerson pm hs fp.motherID
                  else none) with
              | none =>
                  rw [hm] at heq
                  simp only at heq
                  injection heq with heq1 heq2
                  subst heq1
                  subst heq2
                  refine ⟨?_, ?_, ?_⟩
                  · intro r hr
                    rw [hGet_alloc_lt (by omega)]
                    exact b2 r hr
                  · intro r hrmem
                    simp only [List.mem_singleton] at hrmem
                    subst hrmem
                    show h.next ≤ hs.next
                    omega
                  · intro r e hr hget c hcmem
                    rcases hGet_alloc_cases hwf1 hget with hh | ⟨hh1, hh2⟩
                    · exact hclosed1 r e hr hh c hcmem
                    · subst hh2
                      simp only [List.mem_singleton] at hcmem
                      subst hcmem
                      exact hsubRef.1
              | some mo =>
                  rw [hm] at heq
                  simp only at heq
                  injection heq with heq1 heq2
                  subst heq1
                  subst heq2
                  have hwf2 : hWF (hAlloc hs
                      { f with children := [subRef], spouse := none }).2 :=
                    hWF_alloc hwf1
                  have hfcnext : (hAlloc hs
                      { f with children := [subRef], spouse := none }).2.next =
                        hs.next + 1 := rfl
                  have hfcref : (hAlloc hs
                      { f with children := [subRef], spouse := none }).1 = hs.next := rfl
                  have hmcnext : (hAlloc (hAlloc hs
                      { f with children := [subRef], spouse := none }).2
                      { mo with children := [subRef], spouse := none }).2.next =
                        hs.next + 2 := rfl
                  have hmcref : (hAlloc (hAlloc hs
                      { f with children := [subRef], spouse := none }).2
                      { mo with children := [subRef], spouse := none }).1 =
                        hs.next + 1 := rfl
                  have hwf3 : hWF (hAlloc (hAlloc hs
                      { f with children := [subRef], spouse := none }).2
                      { mo with children := [subRef], spouse := none }).2 :=
                    hWF_alloc hwf2
                  refine ⟨?_, ?_, ?_⟩
                  · intro r hr
                    rw [hGet_setSpouse_ne (by rw [hmcref]; omega),
                      hGet_setSpouse_ne (by rw [hfcref]; omega),
                      hGet_alloc_lt (by rw [hfcnext]; omega),
                      hGet_alloc_lt (by omega)]
                    exact b2 r hr
                  · intro r hrmem
                    simp only [List.mem_singleton] at hrmem
                    subst hrmem
                    rw [hfcref]
                    omega
                  · intro r e hr hget c hcmem
                    rcases hGet_setSpouse_cases hget with ⟨e4, hg4, hch4, _⟩
                    rcases hGet_setSpouse_cases hg4 with ⟨e5, hg5, hch5, _⟩
                    rcases hGet_alloc_cases hwf2 hg5 with hh | ⟨hh1, hh2⟩
                    · rcases hGet_alloc_cases hwf1 hh with hh3 | ⟨hh4, hh5⟩
                      · apply hclosed1 r e5 hr hh3
                        rw [← hch5, ← hch4]
                        exact hcmem
                      · rw [hch4, hch5, hh5] at hcmem
                        simp only [List.mem_singleton] at hcmem
                        subst hcmem
                        exact hsubRef.1
                    · rw [hch4, hch5, hh2] at hcmem
                      simp only [List.mem_singleton] at hcmem
                      subst hcmem
                      exact hsubRef.1

/-! ### Final small helpers -/

theorem insertPeople_person_mem (people : List Person) :
    ∀ kv ∈ insertPeople people, kv.2.person ∈ people := by
  suffices h : ∀ (m : PMap), (∀ kv ∈ m, kv.2.person ∈ people) →
      ∀ kv ∈ people.foldl (fun m p => mapSet m p.id ⟨p, [], none⟩) m,
        kv.2.person ∈ people by
    exact h [] (by simp)
  have hstep : ∀ (l : List Person), (∀ p ∈ l, p ∈ people) →
      ∀ (m : PMap), (∀ kv ∈ m, kv.2.person ∈ people) →
      ∀ kv ∈ l.foldl (fun m p => mapSet m p.id ⟨p, [], none⟩) m,
        kv.2.person ∈ people := by
    intro l
    induction l with
    | nil => exact fun _ m hm => hm
    | cons p rest ih =>
        intro hl m hm
        simp only [List.foldl_cons]
        apply ih (fun q hq => hl q (List.mem_cons_of_mem _ hq))
        intro kv hkv
        by_cases hany : m.any (fun kv => kv.1 = p.id) = true
        · rw [mapSet_of_mem_map _ hany] at hkv
          rcases List.mem_map.mp hkv with ⟨kv0, hkv0, heq⟩
          by_cases hk : kv0.1 = p.id
          · simp only [hk, if_true] at heq
            rw [← heq]
            exact hl p (by simp)
          · simp only [hk, if_false] at heq
            exact heq ▸ hm kv0 hkv0
        · simp only [Bool.not_eq_true] at hany
          have hk : p.id ∉ keys m := by
            intro hmem
            rcases List.mem_map.mp hmem with ⟨kv0, hkv0, hkk⟩
            have := List.any_eq_false.mp hany kv0 hkv0
            simp [hkk] at this
          rw [mapSet_of_not_mem _ hk] at hkv
          rcases List.mem_append.mp hkv with hmem | hmem
          · exact hm kv hmem
          · simp only [List.mem_singleton] at hmem
            rw [hmem]
            exact hl p (by simp)
  exact hstep people (fun p hp => hp)

theorem validPeople_truthy_id (rows : List Row) :
    ∀ p ∈ validPeople rows, truthy p.id = true := by
  intro p hp
  unfold validPeople at hp
  rcases List.mem_filterMap.mp hp with ⟨row, _, hrow⟩
  unfold normalizeRow at hrow
  by_cases hc : (!truthy row.id || !truthy row.name) = true
  · rw [if_pos hc] at hrow
    simp at hrow
  · rw [if_neg hc] at hrow
    simp only [Option.some.injEq] at hrow
    rw [← hrow]
    simp only [Bool.or_eq_true, Bool.not_eq_true'] at hc
    push_neg at hc
    simpa using hc.1

theorem length_buildGraph_lookup (people : List Person) :
    (buildGraph people).lookup.length = (insertPeople people).length := by
  rw [length_eq_keys_length, length_eq_keys_length, keys_buildGraph]

theorem generationsAux_nil (m : PMap) (fuel : Nat) :
    generationsAux m fuel [] = [] := by
  cases fuel with
  | zero => rfl
  | succ fuel => simp [generationsAux]

theorem keys_eq_person_ids {people : List Person} {b : String}
    (hb : b ∈ keys (buildGraph people).lookup) :
    ∃ kv ∈ insertPeople people, kv.2.person.id = b ∧ kv.1 = b := by
  rw [keys_buildGraph] at hb
  rcases List.mem_map.mp hb with ⟨kv, hkv, hk⟩
  exact ⟨kv, hkv, (keyed_insertPeople people kv hkv).symm.trans hk, hk⟩

/-! ## Claim theorems -/

/-- Rows with a duplicated id: both are accepted, but the map keeps one
entry per id. -/
def dupIdRows : List Row :=
  [⟨"1", "A", "", "", "", none⟩, ⟨"1", "B", "", "", "", none⟩]

/-- C1 counterexample: the claim says the lookup size equals the accepted
row count for every input row set, but two accepted rows sharing one id
collapse to a single lookup entry (JS Map.set overwrites), so 1 is not 2. -/
theorem c1_counterexample :
    (validPeople dupIdRows).length = 2 ∧
      (buildGraph (validPeople dupIdRows)).lookup.length = 1 ∧
      (buildGraph (validPeople dupIdRows)).lookup.length ≠
        (validPeople dupIdRows).length := by
  refine ⟨by decide, by decide, by decide⟩

/-- C1 (amended): for every input row set whose accepted rows carry
pairwise distinct ids, every Person stored in the lookup map is retrievable
from the map by its own id, and the number of lookup entries equals the
number of accepted rows. -/
theorem c1_amended (rows : List Row)
    (hids : ((validPeople rows).map (fun p => p.id)).Nodup) :
    (∀ k e, (k, e) ∈ (buildGraph (validPeople rows)).lookup →
      mapGet (buildGraph (validPeople rows)).lookup e.person.id = some e) ∧
    (buildGraph (validPeople rows)).lookup.length = (validPeople rows).length := by
  constructor
  · intro k e hmem
    have hk := keyed_buildGraph (validPeople rows) (k, e) hmem
    simp only at hk
    rw [← hk]
    exact mapGet_of_mem_nodup (keysNodup_buildGraph (validPeople rows)) hmem
  · rw [length_buildGraph_lookup]
    exact insertPeople_length hids

/-- C1 witness at a concrete two-row input. -/
theorem c1_witness :
    (buildGraph (validPeople
      [⟨"1", "A", "", "", "", none⟩, ⟨"2", "B", "", "", "", none⟩])).lookup.length =
      (validPeople
        [⟨"1", "A", "", "", "", none⟩, ⟨"2", "B", "", "", "", none⟩]).length :=
  (c1_amended [⟨"1", "A", "", "", "", none⟩, ⟨"2", "B", "", "", "", none⟩]
    (by decide)).2

/-- A parent with two children that both lack a birth date, in input order
child 2 before child 3. -/
def undatedRows : List Row :=
  [⟨"1", "P", "", "", "", none⟩,
   ⟨"2", "A", "1", "", "", none⟩,
   ⟨"3", "B", "1", "", "", none⟩]

/-- C2 counterexample: the claim says two undated children keep their input
order 2, 3; but the source comparator answers 1 for every undated pair in
both orders (it is not a consistent comparator), and under the stable
comparison-faithful merge model of `Array.prototype.sort` the pair comes out
reversed as 3, 2. -/
theorem c2_counterexample :
    childrenOf (buildGraph (validPeople undatedRows)).lookup "1" ≠ ["2", "3"] ∧
      childrenOf (buildGraph (validPeople undatedRows)).lookup "1" = ["3", "2"] := by
  refine ⟨by decide, by decide⟩

/-- C2 (amended): for every person of the lookup after graph construction,
the children list contains no two entries with the same id, and it is
ordered by parsed birth date ascending with every undated child placed
after all dated children; the relative order among undated children is not
preserved in general (the comparator is inconsistent on undated pairs). -/
theorem c2_amended (rows : List Row) (k : String) :
    (childrenOf (buildGraph (validPeople rows)).lookup k).Nodup ∧
      (childrenOf (buildGraph (validPeople rows)).lookup k).Pairwise
        (childOrdered (bdOf (buildGraph (validPeople rows)).lookup)) :=
  ⟨childrenOf_buildGraph_nodup (validPeople rows) k,
    childrenOf_buildGraph_pairwise (validPeople rows) k⟩

/-- C2 witness at the concrete undated-sibling input. -/
theorem c2_witness :
    (childrenOf (buildGraph (validPeople undatedRows)).lookup "1").Nodup :=
  (c2_amended undatedRows "1").1

/-- C3: the final root list never contains two persons that are mutually
resolved spouses of each other, and no root has a resolved spouse marked as
a non-root. -/
theorem c3_roots (rows : List Row) :
    (∀ a ∈ (buildGraph (validPeople rows)).roots,
      ∀ b ∈ (buildGraph (validPeople rows)).roots, a ≠ b →
        ¬(spouseOf (buildGraph (validPeople rows)).lookup a = some b ∧
          spouseOf (buildGraph (validPeople rows)).lookup b = some a)) ∧
    (∀ a ∈ (buildGraph (validPeople rows)).roots, ∀ sid,
      spouseOf (buildGraph (validPeople rows)).lookup a = some sid →
        sid ∉ (buildGraph (validPeople rows)).nonRoots) := by
  by_cases hne : (validPeople rows).length = 0
  · have hempty : validPeople rows = [] := List.length_eq_zero.mp hne
    rw [hempty]
    constructor
    · intro a ha
      simp [buildGraph] at ha
    · intro a ha
      simp [buildGraph] at ha
  · rw [buildGraph_roots_eq (validPeople rows) hne]
    constructor
    · exact finalRoots_no_mutual _ _
    · intro a ha sid hsid
      have htrl := finalRoots_sub _ _ a ha
      exact mem_trueRootList_spouse _ _ _ a htrl sid hsid

/-- C3 witness at a concrete two-root input. -/
theorem c3_witness :
    ¬(spouseOf (buildGraph (validPeople
        [⟨"1", "A", "", "", "", none⟩, ⟨"2", "B", "", "", "", none⟩])).lookup "1" =
          some "2" ∧
      spouseOf (buildGraph (validPeople
        [⟨"1", "A", "", "", "", none⟩, ⟨"2", "B", "", "", "", none⟩])).lookup "2" =
          some "1") :=
  (c3_roots [⟨"1", "A", "", "", "", none⟩, ⟨"2", "B", "", "", "", none⟩]).1
    "1" (by decide) "2" (by decide) (by decide)

/-- A mutual spouse couple with no parents: one of the two becomes the only
root, the other appears in the animation only as a spouse slot. -/
def coupleRows : List Row :=
  [⟨"1", "A", "", "", "2", none⟩, ⟨"2", "B", "", "", "1", none⟩]

/-- C4 counterexample: the claim says the ids emitted by revealPerson
actions equal the full lookup id set; for a mutual root couple the root
deduplication keeps only person 1, the BFS reaches only person 1, and
person 2 (present in the lookup) is never emitted by any revealPerson
action. -/
theorem c4_counterexample :
    "2" ∈ keys (buildGraph (validPeople coupleRows)).lookup ∧
      "2" ∉ revealedIds
        (revealActions (buildGraph (validPeople coupleRows)).lookup
          (buildGraph (validPeople coupleRows)).roots 3) := by
  refine ⟨by decide, by decide⟩

/-- C4 (amended): the id set emitted by the revealPerson actions equals the
set of persons occurring in the BFS generations (the children-reachable
closure of the final roots), each id emitted at most once; the reveal-all
state of the skip escape instead sets the visible set to exactly the full
id set of the lookup. -/
theorem c4_amended (rows : List Row) (fuel : Nat) :
    (∀ p, RAction.revealPeople p ∈
        revealActions (buildGraph (validPeople rows)).lookup
          (buildGraph (validPeople rows)).roots fuel ↔
      p ∈ (generationsAux (buildGraph (validPeople rows)).lookup fuel
        (buildGraph (validPeople rows)).roots).flatten) ∧
    (revealedIds (revealActions (buildGraph (validPeople rows)).lookup
      (buildGraph (validPeople rows)).roots fuel)).Nodup ∧
    (∀ p, p ∈ handleSkipAnimation (buildGraph (validPeople rows)).lookup ↔
      p ∈ keys (buildGraph (validPeople rows)).lookup) := by
  refine ⟨?_, ?_, ?_⟩
  · intro p
    unfold revealActions
    by_cases hroots : (buildGraph (validPeople rows)).roots.length = 0
    · have hempty : (buildGraph (validPeople rows)).roots = [] :=
        List.length_eq_zero.mp hroots
      rw [hempty]
      simp only [List.length_nil, if_pos rfl]
      rw [generationsAux_nil]
      simp
    · simp only [hroots, if_false]
      rw [actionsOfGenerations_shape, ← mem_revealedIds,
        revealedIds_flatMap_blockOf, mem_emitsFrom]
      simp
  · unfold revealActions
    by_cases hroots : (buildGraph (validPeople rows)).roots.length = 0
    · simp only [hroots, if_pos rfl]
      simp [revealedIds]
    · simp only [hroots, if_false]
      rw [actionsOfGenerations_shape, revealedIds_flatMap_blockOf]
      exact nodup_emitsFrom
  · intro p
    unfold handleSkipAnimation
    rw [mem_foldl_setAdd]
    simp [keys]

/-- C4 witness at the concrete couple input. -/
theorem c4_witness :
    (revealedIds (revealActions (buildGraph (validPeople coupleRows)).lookup
      (buildGraph (validPeople coupleRows)).roots 3)).Nodup :=
  (c4_amended coupleRows 3).2.1

/-- C5: in the reveal action list no id occurs in two revealPerson actions,
every revealSpouse action is immediately preceded by the revealPerson
action of the same person and only when that person has a resolved spouse,
and a person is revealed while processing the first BFS generation that
contains it: the ids revealed within the first i generations are exactly
the ids occurring in the first i generations. -/
theorem c5_reveal (rows : List Row) (fuel : Nat) :
    (revealedIds (revealActions (buildGraph (validPeople rows)).lookup
      (buildGraph (validPeople rows)).roots fuel)).Nodup ∧
    spouseAdjacent (buildGraph (validPeople rows)).lookup
      (revealActions (buildGraph (validPeople rows)).lookup
        (buildGraph (validPeople rows)).roots fuel) ∧
    (∀ i p, RAction.revealPeople p ∈
        actionsOfGenerations (buildGraph (validPeople rows)).lookup
          ((generationsAux (buildGraph (validPeople rows)).lookup fuel
            (buildGraph (validPeople rows)).roots).take i) ↔
      p ∈ ((generationsAux (buildGraph (validPeople rows)).lookup fuel
        (buildGraph (validPeople rows)).roots).take i).flatten) := by
  refine ⟨?_, ?_, ?_⟩
  · unfold revealActions
    by_cases hroots : (buildGraph (validPeople rows)).roots.length = 0
    · simp only [hroots, if_pos rfl]
      simp [revealedIds]
    · simp only [hroots, if_false]
      rw [actionsOfGenerations_shape, revealedIds_flatMap_blockOf]
      exact nodup_emitsFrom
  · unfold revealActions
    by_cases hroots : (buildGraph (validPeople rows)).roots.length = 0
    · simp only [hroots, if_pos rfl]
      simp [spouseAdjacent]
    · simp only [hroots, if_false]
      rw [actionsOfGenerations_shape]
      exact spouseAdjacent_flatMap_blockOf _ _
  · intro i p
    rw [actionsOfGenerations_shape, ← mem_revealedIds,
      revealedIds_flatMap_blockOf, mem_emitsFrom]
    simp

/-- C5 witness at the concrete couple input. -/
theorem c5_witness :
    spouseAdjacent (buildGraph (validPeople coupleRows)).lookup
      (revealActions (buildGraph (validPeople coupleRows)).lookup
        (buildGraph (validPeople coupleRows)).roots 3) :=
  (c5_reveal coupleRows 3).2.1

theorem clampScale_pos (s : ℚ) : 0 < clampScale s := by
  unfold clampScale
  have : (0 : ℚ) < 2/10 := by norm_num
  exact lt_of_lt_of_le this (le_max_left _ _)

/-- C6 counterexample: the claim extends anchor preservation to the
discrete step-zoom buttons, but `zoomIn` rescales without adjusting the
pan, so the content point under pointer (1, 1) moves: before the zoom it is
(1, 1), afterwards it is (5/6, 5/6). -/
theorem c6_counterexample :
    contentUnder (zoomIn ⟨0, 0, 1⟩) 1 1 ≠ contentUnder ⟨0, 0, 1⟩ 1 1 := by
  simp only [contentUnder, zoomIn]
  norm_num

/-- C6 (amended): for the continuous zoom inputs - wheel and pinch - the
content-space point under the pointer before the zoom remains under the
same screen-space pointer position after the new clamped scale is applied;
the step-zoom buttons only rescale about the content origin and do not
preserve the pointer anchor. -/
theorem c6_amended (v : Viewport) (px py mx my ld nd : ℚ) (dir : Bool)
    (h : v.scale ≠ 0) :
    contentUnder (handleWheel v px py dir) px py = contentUnder v px py ∧
    contentUnder (handlePinch v mx my ld nd) mx my = contentUnder v mx my := by
  obtain ⟨pX, pY, s⟩ := v
  simp only at h
  constructor
  · simp only [contentUnder, handleWheel]
    have hc := clampScale_pos (if dir = true then s * (1 - 1/10) else s * (1 + 1/10))
    set c := clampScale (if dir = true then s * (1 - 1/10) else s * (1 + 1/10)) with hcdef
    have hcne : c ≠ 0 := ne_of_gt hc
    congr 1 <;> field_simp <;> ring
  · simp only [contentUnder, handlePinch]
    have hc := clampScale_pos (s * (nd / ld))
    set c := clampScale (s * (nd / ld)) with hcdef
    have hcne : c ≠ 0 := ne_of_gt hc
    congr 1 <;> field_simp <;> ring

/-- C6 witness at a concrete viewport and pointer. -/
theorem c6_witness :
    contentUnder (handleWheel ⟨0, 0, 1⟩ 1 1 false) 1 1 =
        contentUnder ⟨0, 0, 1⟩ 1 1 ∧
      contentUnder (handlePinch ⟨0, 0, 1⟩ 2 2 1 2) 2 2 =
        contentUnder ⟨0, 0, 1⟩ 2 2 :=
  ⟨(c6_amended ⟨0, 0, 1⟩ 1 1 2 2 1 2 false (by norm_num)).1,
   (c6_amended ⟨0, 0, 1⟩ 1 1 2 2 1 2 false (by norm_num)).2⟩

/-- C7 counterexample: the claim quantifies over every state and factor,
but at the clamp boundary the zoom is lossy: at scale 3, zoomAt with factor
6/5 is clamped to a no-op, and reversing with factor 5/6 then zooms out to
scale 5/2 and pan 1/6 instead of restoring scale 3 and pan 0. -/
theorem c7_counterexample :
    (zoomAt (zoomAt ⟨0, 0, 3⟩ 1 1 (6/5)) 1 1 ((6/5)⁻¹)).scale ≠
        (Viewport.mk 0 0 3).scale ∧
      (zoomAt (zoomAt ⟨0, 0, 3⟩ 1 1 (6/5)) 1 1 ((6/5)⁻¹)).panX ≠
        (Viewport.mk 0 0 3).panX := by
  simp only [zoomAt, clampScale]
  norm_num

/-- C7 (amended): when neither application of the scale clamp bites - the
current scale and the target scale both lie inside the clamp range
[0.2, 3] - zoomAt at a pointer followed by zoomAt at the same pointer with
the inverse factor restores the pan and scale exactly. -/
theorem c7_amended (v : Viewport) (px py f : ℚ)
    (h1 : 1/5 ≤ v.scale) (h2 : v.scale ≤ 3)
    (h3 : 1/5 ≤ v.scale * f) (h4 : v.scale * f ≤ 3) :
    zoomAt (zoomAt v px py f) px py f⁻¹ = v := by
  obtain ⟨pX, pY, s⟩ := v
  simp only at h1 h2 h3 h4
  have hs : s ≠ 0 := by
    intro hh
    rw [hh] at h1
    norm_num at h1
  have hf : f ≠ 0 := by
    intro hh
    rw [hh, mul_zero] at h3
    norm_num at h3
  have hclamp1 : clampScale (s * f) = s * f := by
    unfold clampScale
    rw [min_eq_left h4, max_eq_right (by linarith)]
  have hinv : s * f * f⁻¹ = s := by
    field_simp
  have hclamp2 : clampScale (s * f * f⁻¹) = s := by
    rw [hinv]
    unfold clampScale
    rw [min_eq_left h2, max_eq_right (by linarith)]
  have hsf : s * f ≠ 0 := mul_ne_zero hs hf
  simp only [zoomAt, hclamp1, hclamp2]
  simp only [Viewport.mk.injEq]
  refine ⟨?_, ?_, trivial⟩ <;> field_simp <;> ring

/-- C7 witness at a concrete in-range state and factor. -/
theorem c7_witness :
    zoomAt (zoomAt ⟨0, 0, 1⟩ 1 1 2) 1 1 2⁻¹ = (⟨0, 0, 1⟩ : Viewport) :=
  c7_amended ⟨0, 0, 1⟩ 1 1 2 (by norm_num) (by norm_num) (by norm_num)
    (by norm_num)

/-- A one-directional spouse chain: person 1 declares 2, person 2 declares
3, person 3 declares nobody. -/
def chainRows : List Row :=
  [⟨"1", "A", "", "", "2", none⟩,
   ⟨"2", "B", "", "", "3", none⟩,
   ⟨"3", "C", "", "", "", none⟩]

/-- C8 counterexample: the claim says that when person 2 does not declare
person 1 back, the spouse of person 2 remains unresolved; but person 2
declares person 3, so its spouse resolves to person 3 - not to nothing. -/
theorem c8_counterexample :
    partnerOf (buildGraph (validPeople chainRows)).lookup "1" = some "2" ∧
      partnerOf (buildGraph (validPeople chainRows)).lookup "2" ≠ some "1" ∧
      spouseOf (buildGraph (validPeople chainRows)).lookup "2" = some "3" ∧
      spouseOf (buildGraph (validPeople chainRows)).lookup "2" ≠ none := by
  refine ⟨by decide, by decide, by decide, by decide⟩

/-- C8 (amended): spouse resolution is one-directional per declaring
person: when A declares spouseId = B and B is in the lookup, the spouse of
A resolves to B; when B does not itself declare spouseId = A, the spouse of
B is never resolved to A (it follows only the declaration B itself makes,
if any). -/
theorem c8_amended (rows : List Row) (a b : String)
    (h1 : partnerOf (buildGraph (validPeople rows)).lookup a = some b)
    (h2 : (mapGet (buildGraph (validPeople rows)).lookup b).isSome = true)
    (h3 : partnerOf (buildGraph (validPeople rows)).lookup b ≠ some a) :
    spouseOf (buildGraph (validPeople rows)).lookup a = some b ∧
      spouseOf (buildGraph (validPeople rows)).lookup b ≠ some a := by
  have hne : (validPeople rows).length ≠ 0 := by
    intro hzero
    have hempty : validPeople rows = [] := List.length_eq_zero.mp hzero
    rw [hempty] at h1
    simp [buildGraph, partnerOf, mapGet] at h1
  have hbkeys : b ∈ keys (buildGraph (validPeople rows)).lookup :=
    mapGet_isSome_iff.mp h2
  have hbm0 : b ∈ keys (insertPeople (validPeople rows)) := by
    rw [← keys_buildGraph]
    exact hbkeys
  have hbtruthy : truthy b = true := by
    rcases keys_eq_person_ids hbkeys with ⟨kv, hkv, hid, _⟩
    rw [← hid]
    exact validPeople_truthy_id rows kv.2.person
      (insertPeople_person_mem (validPeople rows) kv hkv)
  rw [partnerOf_buildGraph _ _ hne] at h1 h3
  constructor
  · rw [spouseOf_buildGraph _ _ hne]
    cases hget : mapGet (insertPeople (validPeople rows)) a with
    | none => rw [hget] at h1; simp at h1
    | some ea =>
        rw [hget] at h1
        simp only [Option.map_some', Option.some.injEq] at h1
        simp only [Option.some_bind]
        rw [h1, if_pos]
        simp only [Bool.and_eq_true]
        exact ⟨hbtruthy, by rw [mapGet_isSome_iff]; exact hbm0⟩
  · rw [spouseOf_buildGraph _ _ hne]
    cases hget : mapGet (insertPeople (validPeople rows)) b with
    | none => simp [hget]
    | some eb =>
        rw [hget] at h3
        simp only [Option.map_some', Option.some.injEq] at h3
        simp only [Option.some_bind]
        split
        · exact h3
        · simp

/-- C8 witness at the concrete one-directional chain. -/
theorem c8_witness :
    spouseOf (buildGraph (validPeople chainRows)).lookup "1" = some "2" ∧
      spouseOf (buildGraph (validPeople chainRows)).lookup "2" ≠ some "1" :=
  c8_amended chainRows "1" "2" (by decide) (by decide) (by decide)

/-- C9: computing the focused display forest never mutates the shared
lookup heap: every pre-existing reference reads back unchanged (same
children and spouse), every returned displayed root is a freshly allocated
reference, and the children links of every fresh node stay inside the fresh
region, so the whole displayed forest consists of fresh copies. -/
theorem c9_no_mutation (pm : RMap) (fuel : Nat) (h : Heap) (fid : String)
    (roots : List Nat) (out : List Nat) (h2 : Heap) (hwf : hWF h)
    (heq : displayedRoots pm fuel h (some fid) roots = (out, h2)) :
    (∀ r, r < h.next → hGet h2 r = hGet h r) ∧
    (∀ r ∈ out, h.next ≤ r) ∧
    (∀ r e, h.next ≤ r → hGet h2 r = some e → ∀ c ∈ e.children, h.next ≤ c) := by
  have heq2 : displayedRootsFocused pm fuel h fid = (out, h2) := heq
  exact displayedRoots_spec pm fuel h fid out h2 hwf heq2

/-- A two-person heap: person 1 with child 2. -/
def focusHeap : Heap :=
  ⟨[(0, ⟨"1", "", "", [1], none⟩), (1, ⟨"2", "1", "", [], none⟩)], 2⟩

/-- The id-to-reference map of `focusHeap`. -/
def focusMap : RMap := [("1", 0), ("2", 1)]

/-- C9 witness: focusing person 2 of the concrete heap leaves reference 0
(the shared parent object) unchanged. -/
theorem c9_witness :
    hGet (displayedRoots focusMap 5 focusHeap (some "2") [0]).2 0 =
      hGet focusHeap 0 :=
  (c9_no_mutation focusMap 5 focusHeap "2" [0]
    (displayedRoots focusMap 5 focusHeap (some "2") [0]).1
    (displayedRoots focusMap 5 focusHeap (some "2") [0]).2
    (by unfold hWF; decide) rfl).1 0 (by decide)

/-- C10: dangling parent references are silently ignored: every child edge
of the lookup is witnessed by a declared parent id whose target exists, and
a person all of whose declared parent references are dangling is not marked
non-root and remains a root candidate; construction is total. -/
theorem c10_dangling (rows : List Row) :
    (∀ q c, c ∈ childrenOf (buildGraph (validPeople rows)).lookup q →
      (mapGet (buildGraph (validPeople rows)).lookup c).isSome = true ∧
        q ∈ parentsOf (buildGraph (validPeople rows)).lookup c) ∧
    (∀ k, (mapGet (buildGraph (validPeople rows)).lookup k).isSome = true →
      (∀ par ∈ parentsOf (buildGraph (validPeople rows)).lookup k,
        mapGet (buildGraph (validPeople rows)).lookup par = none) →
      k ∉ (buildGraph (validPeople rows)).nonRoots ∧
        k ∈ rootCandidates (buildGraph (validPeople rows)).lookup
          (buildGraph (validPeople rows)).nonRoots) := by
  by_cases hne : (validPeople rows).length = 0
  · have hempty : validPeople rows = [] := List.length_eq_zero.mp hne
    rw [hempty]
    constructor
    · intro q c hc
      simp [buildGraph, childrenOf, mapGet] at hc
    · intro k hk
      simp [buildGraph, mapGet] at hk
  · constructor
    · intro q c hc
      exact children_sound (validPeople rows) q c hne hc
    · intro k hk hd
      have hnr : k ∉ (buildGraph (validPeople rows)).nonRoots := by
        intro hmem
        rcases nonRoots_sound (validPeople rows) k hne hmem with
          ⟨_, par, hpar, hkeys⟩
        have := hd par hpar
        rw [mapGet_eq_none_iff] at this
        exact this hkeys
      exact ⟨hnr, mem_rootCandidates_of (validPeople rows) k hne hk hnr⟩

/-- A single person whose declared father id 9 is absent from the data. -/
def danglingRows : List Row := [⟨"1", "A", "9", "", "", none⟩]

/-- C10 witness: the person with only a dangling father reference is not a
non-root and stays a root candidate. -/
theorem c10_witness :
    "1" ∉ (buildGraph (validPeople danglingRows)).nonRoots ∧
      "1" ∈ rootCandidates (buildGraph (validPeople danglingRows)).lookup
        (buildGraph (validPeople danglingRows)).nonRoots :=
  (c10_dangling danglingRows).2 "1" (by decide) (by decide)

end FT
